import Mathlib

/-
Verification development for the scraper service.

Shallow embedding of the repository modules that the claims concern:
  app/utils/url_cleaners/normalizer.py   (normalize_url, extract_domain)
  app/utils/date_filters/filters.py      (parse_date, is_recent_article,
                                          filter_recent_articles)
  app/core/scraper.py                    (Scraper.scrape_urls, Scraper.scrape_url,
                                          Scraper._scrape_article)

Python strings are modelled as lists of characters at the byte level: a
Python str is identified with its UTF-8 byte sequence, each byte a Char
with code below 256.  Percent-encoding and -decoding in urllib operate on
bytes, so composing with the UTF-8 decode at the end makes this byte-level
model agree with CPython exactly on byte strings.  The relevant pieces of
the CPython standard library (urllib.parse as of CPython 3.8-3.10, the
datetime strptime machinery, the re fallback of parse_date) are embedded
faithfully below next to the repository functions that call them.
-/

namespace PyStr

/-- Python list or string concatenation of the pieces produced by a map. -/
def concatMap (f : α → List β) : List α → List β
  | [] => []
  | a :: l => f a ++ concatMap f l

/-- Splits a list at the first element satisfying p: the first component is
the prefix of elements not satisfying p, the second the remainder (which, if
nonempty, starts with the first element satisfying p).  This models the
family of s.find(c) plus slicing idioms used by urllib. -/
def breakAt (p : Char → Bool) : List Char → List Char × List Char
  | [] => ([], [])
  | c :: s =>
    if p c then ([], c :: s)
    else
      let r := breakAt p s
      (c :: r.1, r.2)

/-- Membership test for one character, as the Python in operator on str. -/
def hasChar (s : List Char) (c : Char) : Bool := s.any (fun x => x = c)

/-- The string is a byte string: every character code is below 256.  This
is the convention identifying a Python str with its UTF-8 bytes. -/
abbrev allBytes (s : List Char) : Prop := ∀ c ∈ s, c.toNat < 256

/-- Python s.split(sep): splits on every occurrence of sep, keeping empty
chunks, with the empty input giving one empty chunk. -/
def splitSep (sep : Char) : List Char → List (List Char)
  | [] => [[]]
  | c :: rest =>
    if c = sep then [] :: splitSep sep rest
    else
      match splitSep sep rest with
      | g :: gs => (c :: g) :: gs
      | [] => [[c]]

end PyStr

namespace Urllib

open PyStr

/-- Tab, carriage return and newline: bytes CPython urlsplit removes from
the URL before parsing. -/
def unsafeUrlByte (c : Char) : Bool :=
  c = '\t' || c = '\r' || c = '\n'

/-- The removal of the unsafe bytes performed at the top of urlsplit. -/
def cleanUrl (s : List Char) : List Char :=
  s.filter (fun c => !unsafeUrlByte c)

def isAsciiUpper (c : Char) : Bool := 'A' ≤ c && c ≤ 'Z'
def isAsciiLower (c : Char) : Bool := 'a' ≤ c && c ≤ 'z'
def isAsciiAlpha (c : Char) : Bool := isAsciiUpper c || isAsciiLower c
def isAsciiDigit (c : Char) : Bool := '0' ≤ c && c ≤ '9'

/-- Characters allowed in a URL scheme (scheme_chars in urllib.parse). -/
def schemeChar (c : Char) : Bool :=
  isAsciiAlpha c || isAsciiDigit c || c = '+' || c = '-' || c = '.'

/-- ASCII lowercasing of one character, as str.lower acts on ASCII. -/
def lowerChar (c : Char) : Char :=
  if isAsciiUpper c then Char.ofNat (c.toNat + 32) else c

def lowerStr (s : List Char) : List Char := s.map lowerChar

/-- The scheme-splitting step of urlsplit: if the text before the first
colon is a nonempty run of scheme characters starting with an ASCII letter,
it is removed and returned lowercased; otherwise the scheme is empty. -/
def splitScheme (s : List Char) : List Char × List Char :=
  match breakAt (fun c => c = ':') s with
  | (before, ':' :: rest) =>
    match before with
    | [] => ([], s)
    | h :: t =>
      if isAsciiAlpha h && (h :: t).all schemeChar then (lowerStr (h :: t), rest)
      else ([], s)
  | _ => ([], s)

/-- Delimiters ending the network-location part (_splitnetloc). -/
def netlocDelim (c : Char) : Bool := c = '/' || c = '?' || c = '#'

/-- Does the netloc have mismatched square brackets?  CPython raises
ValueError (Invalid IPv6 URL) in that case. -/
def badBrackets (n : List Char) : Bool :=
  (PyStr.hasChar n '[' && !PyStr.hasChar n ']') ||
    (PyStr.hasChar n ']' && !PyStr.hasChar n '[')

/-- Result of urlsplit/urlparse: the six URL components.  urlsplit leaves
params empty; urlparse fills it by splitting the path. -/
structure Components where
  scheme : List Char
  netloc : List Char
  path : List Char
  params : List Char
  query : List Char
  fragment : List Char
deriving DecidableEq, Repr

/-- Fragment splitting: at the first hash sign, if any. -/
def splitFragmentF (s : List Char) : List Char × List Char :=
  match breakAt (fun c => c = '#') s with
  | (a, '#' :: b) => (a, b)
  | _ => (s, [])

/-- Query splitting: at the first question mark, if any. -/
def splitQueryF (s : List Char) : List Char × List Char :=
  match breakAt (fun c => c = '?') s with
  | (a, '?' :: b) => (a, b)
  | _ => (s, [])

/-- CPython urlsplit.  Returns none where CPython raises ValueError
(mismatched brackets in the netloc).  The _checknetloc NFKC check only
concerns non-ASCII text and is vacuous in the byte-level model. -/
def urlsplitE (url0 : List Char) : Option Components :=
  let url1 := cleanUrl url0
  let sr := splitScheme url1
  match sr.2 with
  | '/' :: '/' :: rest =>
    let nr := breakAt netlocDelim rest
    if badBrackets nr.1 then none
    else
      let fr := splitFragmentF nr.2
      let qr := splitQueryF fr.1
      some ⟨sr.1, nr.1, qr.1, [], qr.2, fr.2⟩
  | other =>
    let fr := splitFragmentF other
    let qr := splitQueryF fr.1
    some ⟨sr.1, [], qr.1, [], qr.2, fr.2⟩

/-- The last path segment (text after the last slash). -/
def afterLastSlash (s : List Char) : List Char :=
  (s.reverse.takeWhile (fun c => c ≠ '/')).reverse

/-- Everything up to and including the last slash. -/
def upToLastSlash (s : List Char) : List Char :=
  s.take (s.length - (afterLastSlash s).length)

/-- CPython _splitparams: split params off the last path segment. -/
def splitparams (path : List Char) : List Char × List Char :=
  if PyStr.hasChar path '/' then
    match breakAt (fun c => c = ';') (afterLastSlash path) with
    | (a, ';' :: b) => (upToLastSlash path ++ a, b)
    | _ => (path, [])
  else
    match breakAt (fun c => c = ';') path with
    | (a, ';' :: b) => (a, b)
    | _ => (path, [])

/-- Schemes for which urlparse splits params off the path (uses_params). -/
def usesParams : List (List Char) :=
  [ [], "ftp".data, "hdl".data, "prospero".data, "http".data, "imap".data,
    "https".data, "shttp".data, "rtsp".data, "rtspu".data, "sip".data,
    "sips".data, "mms".data, "sftp".data, "tel".data ]

/-- The params-splitting step of urlparse, shared between both parses. -/
def paramsSplit (scheme path : List Char) : List Char × List Char :=
  if scheme ∈ usesParams ∧ PyStr.hasChar path ';' = true then splitparams path
  else (path, [])

/-- CPython urlparse: urlsplit followed by the params split. -/
def urlparseE (url : List Char) : Option Components :=
  (urlsplitE url).map fun c =>
    let pp := paramsSplit c.scheme c.path
    ⟨c.scheme, c.netloc, pp.1, pp.2, c.query, c.fragment⟩

def isHexDigit (c : Char) : Bool :=
  isAsciiDigit c || ('a' ≤ c && c ≤ 'f') || ('A' ≤ c && c ≤ 'F')

def hexVal (c : Char) : Nat :=
  if isAsciiDigit c then c.toNat - 48
  else if 'a' ≤ c && c ≤ 'f' then c.toNat - 87
  else c.toNat - 55

/-- Uppercase hex digit for a value below 16. -/
def hexDigitU (n : Nat) : Char :=
  if n < 10 then Char.ofNat (48 + n) else Char.ofNat (55 + n)

/-- Two uppercase hex digits of a byte (CPython percent-encodes bytewise). -/
def hexByteU (n : Nat) : List Char :=
  [hexDigitU ((n % 256) / 16), hexDigitU (n % 16)]

/-- CPython unquote restricted to bytes: each percent sign followed by two
hex digits becomes the corresponding byte; a percent sign not followed by
two hex digits stays literal. -/
def unquoteBytes : List Char → List Char
  | '%' :: a :: b :: rest =>
    if isHexDigit a && isHexDigit b then
      Char.ofNat (16 * hexVal a + hexVal b) :: unquoteBytes rest
    else '%' :: unquoteBytes (a :: b :: rest)
  | c :: rest => c :: unquoteBytes rest
  | [] => []

/-- The plus-to-space replacement parse_qsl applies before unquote. -/
def replacePlus (s : List Char) : List Char :=
  s.map (fun c => if c = '+' then ' ' else c)

/-- CPython unquote_plus at byte level. -/
def unquotePlus (s : List Char) : List Char := unquoteBytes (replacePlus s)

/-- Characters quote never escapes (the _ALWAYS_SAFE set, with the default
safe argument of urlencode via quote_plus being empty). -/
def alwaysSafe (c : Char) : Bool :=
  isAsciiAlpha c || isAsciiDigit c || c = '_' || c = '.' || c = '-' || c = '~'

/-- CPython quote_plus on one byte: safe bytes unchanged, space to plus,
everything else percent-encoded with uppercase hex. -/
def quotePlusChar (c : Char) : List Char :=
  if alwaysSafe c then [c]
  else if c = ' ' then ['+']
  else '%' :: hexByteU c.toNat

def quotePlus (s : List Char) : List Char := concatMap quotePlusChar s

/-- One chunk of parse_qsl with keep_blank_values False: chunks without an
equals sign and chunks with an empty raw value are dropped; name and value
get the plus replacement and percent-decoding. -/
def qslChunk (nv : List Char) : Option (List Char × List Char) :=
  match breakAt (fun c => c = '=') nv with
  | (n, '=' :: v) =>
    if v = [] then none else some (unquotePlus n, unquotePlus v)
  | _ => none

/-- CPython parse_qsl with the defaults used by parse_qs (separator the
ampersand only, keep_blank_values False, strict_parsing False). -/
def parseQsl (qs : List Char) : List (List Char × List Char) :=
  if qs = [] then [] else (splitSep '&' qs).filterMap qslChunk

/-- Insertion into the ordered dict parse_qs builds: append the value to an
existing key, else append a fresh key at the end. -/
def addPair (d : List (List Char × List (List Char))) (k v : List Char) :
    List (List Char × List (List Char)) :=
  match d with
  | [] => [(k, [v])]
  | (k0, vs) :: rest =>
    if k0 = k then (k0, vs ++ [v]) :: rest else (k0, vs) :: addPair rest k v

/-- The dict-building loop of parse_qs over a pair list. -/
def groupQs (pairs : List (List Char × List Char)) :
    List (List Char × List (List Char)) :=
  pairs.foldl (fun d kv => addPair d kv.1 kv.2) []

/-- CPython parse_qs: ordered dict from key to list of values. -/
def parse_qs (qs : List Char) : List (List Char × List (List Char)) :=
  groupQs (parseQsl qs)

/-- Flattening of the grouped dict back to pairs, in dict order with the
values of each key consecutive: the traversal order of urlencode. -/
def ungroup (d : List (List Char × List (List Char))) :
    List (List Char × List Char) :=
  concatMap (fun kv => kv.2.map (fun v => (kv.1, v))) d

/-- Ampersand-joining of encoded pairs. -/
def joinAmp : List (List Char) → List Char
  | [] => []
  | [x] => x
  | x :: y :: xs => x ++ '&' :: joinAmp (y :: xs)

/-- CPython urlencode with doseq True on the dict produced by parse_qs. -/
def urlencodeGrouped (d : List (List Char × List (List Char))) : List Char :=
  joinAmp (List.map (fun kv => quotePlus kv.1 ++ '=' :: quotePlus kv.2)
    (ungroup d))

/-- CPython urlunparse: reattach params to the path, then urlunsplit. -/
def urlunparse (c : Components) : List Char :=
  let p0 := if c.params = [] then c.path else c.path ++ ';' :: c.params
  let u1 :=
    if c.netloc ≠ [] ∨ p0.take 2 = [ '/', '/' ] then
      ('/' :: '/' :: c.netloc) ++
        (if p0 ≠ [] ∧ p0.take 1 ≠ [ '/' ] then '/' :: p0 else p0)
    else p0
  let u2 := if c.scheme ≠ [] then c.scheme ++ ':' :: u1 else u1
  let u3 := if c.query ≠ [] then u2 ++ '?' :: c.query else u2
  if c.fragment ≠ [] then u3 ++ '#' :: c.fragment else u3

end Urllib

namespace Normalizer

open PyStr Urllib

/-- The fixed tracking-parameter deny-list of normalize_url. -/
def tracking_params : List (List Char) :=
  [ "utm_source".data, "utm_medium".data, "utm_campaign".data, "utm_term".data,
    "utm_content".data, "fbclid".data, "gclid".data, "msclkid".data,
    "ref".data, "source".data, "referrer".data, "mc_cid".data, "mc_eid".data ]

/-- The deletion loop over the deny-list: order-preserving removal of the
matching keys from the parse_qs dict. -/
def removeTracking (d : List (List Char × List (List Char))) :
    List (List Char × List (List Char)) :=
  d.filter (fun kv => decide (kv.1 ∉ tracking_params))

/-- normalize_url from app/utils/url_cleaners/normalizer.py.  Empty input
and inputs parsing with an empty netloc give none (Python None); a parse
error (the except branch) returns the input unchanged; otherwise the URL is
rebuilt with tracking parameters removed and without the fragment. -/
def normalize_url (url : List Char) : Option (List Char) :=
  if url = [] then none
  else
    match urlparseE url with
    | none => some url
    | some parsed =>
      if parsed.netloc = [] then none
      else
        let qs := urlencodeGrouped (removeTracking (parse_qs parsed.query))
        some (urlunparse ⟨parsed.scheme, parsed.netloc, parsed.path,
          parsed.params, qs, []⟩)

/-- extract_domain from the same module: the netloc with a leading www.
label removed; none for empty input or a parse error. -/
def extract_domain (url : List Char) : Option (List Char) :=
  if url = [] then none
  else
    match urlparseE url with
    | none => none
    | some parsed =>
      if parsed.netloc.take 4 = "www.".data then some (parsed.netloc.drop 4)
      else some parsed.netloc

end Normalizer

namespace DateFilters

open PyStr Urllib

/-- A Python datetime.datetime value (naive: the formats used by parse_date
carry no timezone directive). -/
structure PyDateTime where
  year : Nat
  month : Nat
  day : Nat
  hour : Nat
  minute : Nat
  second : Nat
  microsecond : Nat
deriving DecidableEq, Repr

def isLeap (y : Nat) : Bool := y % 4 = 0 && (y % 100 ≠ 0 || y % 400 = 0)

def daysInMonth (y m : Nat) : Nat :=
  if m = 2 then (if isLeap y then 29 else 28)
  else if m = 4 ∨ m = 6 ∨ m = 9 ∨ m = 11 then 30
  else 31

/-- The year, month and day checks of the datetime constructor: out-of-range
values raise ValueError there. -/
def validYMD (y m d : Nat) : Bool :=
  1 ≤ y && y ≤ 9999 && 1 ≤ m && m ≤ 12 && 1 ≤ d && d ≤ daysInMonth y m

/-- Format-string tokens of the strptime patterns used in filters.py. -/
inductive FmtTok
  | lit : Char → FmtTok
  | dirY | dirm | dird | dirH | dirM | dirS | dirf | dirB
deriving DecidableEq, Repr

/-- Reading a strptime format string into tokens (a percent sign followed by
a directive letter; filters.py uses only the directives below). -/
def toToks : List Char → List FmtTok
  | '%' :: c :: rest =>
    (if c = 'Y' then FmtTok.dirY
     else if c = 'm' then FmtTok.dirm
     else if c = 'd' then FmtTok.dird
     else if c = 'H' then FmtTok.dirH
     else if c = 'M' then FmtTok.dirM
     else if c = 'S' then FmtTok.dirS
     else if c = 'f' then FmtTok.dirf
     else if c = 'B' then FmtTok.dirB
     else FmtTok.lit c) :: toToks rest
  | c :: rest => FmtTok.lit c :: toToks rest
  | [] => []

/-- One alternative of a directive, mirroring one branch of the alternation
in the regex _strptime compiles: a fixed digit string, a case-insensitive
name, or a fixed count of digits scaled by a multiplier (the microsecond
directive pads to six digits). -/
inductive AltPat
  | lit : List Char → Nat → AltPat
  | litCI : List Char → Nat → AltPat
  | digitsN : Nat → Nat → AltPat
deriving DecidableEq, Repr

def digitChar (n : Nat) : Char := Char.ofNat (48 + n)

/-- Two-digit zero-padded literal alternative for a value below 100. -/
def alt2 (n : Nat) : AltPat := AltPat.lit [digitChar (n / 10), digitChar (n % 10)] n

/-- One-digit literal alternative for a value below 10. -/
def alt1 (n : Nat) : AltPat := AltPat.lit [digitChar n] n

def natOfDigits (s : List Char) : Nat :=
  s.foldl (fun acc c => 10 * acc + (c.toNat - 48)) 0

/-- Matching one alternative against a prefix of the input; returns the
captured value and the rest of the input. -/
def matchAlt (a : AltPat) (s : List Char) : Option (Nat × List Char) :=
  match a with
  | AltPat.lit cs v => if s.take cs.length = cs then some (v, s.drop cs.length) else none
  | AltPat.litCI cs v =>
    if lowerStr (s.take cs.length) = cs then some (v, s.drop cs.length) else none
  | AltPat.digitsN k mult =>
    let pre := s.take k
    if pre.length = k ∧ pre.all isAsciiDigit then some (mult * natOfDigits pre, s.drop k)
    else none

/-- The English month names with values, sorted by length descending as
the seqToRE helper of _strptime sorts them (stable). -/
def monthAlts : List AltPat :=
  [ AltPat.litCI ("september".data) 9, AltPat.litCI ("february".data) 2,
    AltPat.litCI ("november".data) 11, AltPat.litCI ("december".data) 12,
    AltPat.litCI ("january".data) 1, AltPat.litCI ("october".data) 10,
    AltPat.litCI ("august".data) 8, AltPat.litCI ("march".data) 3,
    AltPat.litCI ("april".data) 4, AltPat.litCI ("june".data) 6,
    AltPat.litCI ("july".data) 7, AltPat.litCI ("may".data) 5 ]

/-- The regex alternation of each directive in the TimeRE table of
_strptime, expanded branch by branch in the same order (two-digit branches
before the bare one-digit branch, as in the compiled patterns). -/
def altsOf : FmtTok → List AltPat
  | FmtTok.dirY => [AltPat.digitsN 4 1]
  | FmtTok.dirm =>
    (List.range' 10 3).map alt2 ++ (List.range' 1 9).map alt2 ++
      (List.range' 1 9).map alt1
  | FmtTok.dird =>
    (List.range' 30 2).map alt2 ++ (List.range' 10 20).map alt2 ++
      (List.range' 1 9).map alt2 ++ (List.range' 1 9).map alt1
  | FmtTok.dirH =>
    (List.range' 20 4).map alt2 ++ (List.range' 0 20).map alt2 ++
      (List.range' 0 10).map alt1
  | FmtTok.dirM => (List.range' 0 60).map alt2 ++ (List.range' 0 10).map alt1
  | FmtTok.dirS =>
    (List.range' 60 2).map alt2 ++ (List.range' 0 60).map alt2 ++
      (List.range' 0 10).map alt1
  | FmtTok.dirf =>
    [ AltPat.digitsN 6 1, AltPat.digitsN 5 10, AltPat.digitsN 4 100,
      AltPat.digitsN 3 1000, AltPat.digitsN 2 10000, AltPat.digitsN 1 100000 ]
  | FmtTok.dirB => monthAlts
  | FmtTok.lit _ => []

/-- Partial capture record built while matching a format. -/
structure Caps where
  y : Option Nat := none
  mo : Option Nat := none
  d : Option Nat := none
  h : Option Nat := none
  mi : Option Nat := none
  s : Option Nat := none
  f : Option Nat := none
deriving DecidableEq, Repr

def setCap (t : FmtTok) (n : Nat) (c : Caps) : Caps :=
  match t with
  | FmtTok.dirY => { c with y := some n }
  | FmtTok.dirm => { c with mo := some n }
  | FmtTok.dird => { c with d := some n }
  | FmtTok.dirH => { c with h := some n }
  | FmtTok.dirM => { c with mi := some n }
  | FmtTok.dirS => { c with s := some n }
  | FmtTok.dirf => { c with f := some n }
  | FmtTok.dirB => { c with mo := some n }
  | FmtTok.lit _ => c

/-- Depth-first matching of the token list against the input, as the
backtracking regex engine matches the compiled format: a literal must match
the next character; a directive tries its alternatives in order, and an
alternative whose continuation fails is abandoned for the next one
(List.findSome? over the alternatives is exactly this backtracking).
Returns the captures and the unconsumed rest of the first complete match. -/
def matchToks : List FmtTok → Caps → List Char → Option (Caps × List Char)
  | [], caps, s => some (caps, s)
  | FmtTok.lit c :: ts, caps, s =>
    match s with
    | x :: xs => if x = c then matchToks ts caps xs else none
    | [] => none
  | t :: ts, caps, s =>
    (altsOf t).findSome? fun a =>
      match matchAlt a s with
      | some nr => matchToks ts (setCap t nr.1 caps) nr.2
      | none => none

/-- datetime.strptime of filters.py at one format: a full match is required
(unconverted data raises), defaults are year 1900, month 1, day 1, zero
time, and out-of-range dates make the datetime constructor raise, which
parse_date turns into trying the next format. -/
def strptime (fmt s : List Char) : Option PyDateTime :=
  match matchToks (toToks fmt) {} s with
  | some (caps, []) =>
    let y := caps.y.getD 1900
    let mo := caps.mo.getD 1
    let d := caps.d.getD 1
    let h := caps.h.getD 0
    let mi := caps.mi.getD 0
    let sec := caps.s.getD 0
    let f := caps.f.getD 0
    if validYMD y mo d ∧ sec ≤ 59 then some ⟨y, mo, d, h, mi, sec, f⟩ else none
  | _ => none

/-- The format list of parse_date, in source order. -/
def date_formats : List (List Char) :=
  [ "%Y-%m-%dT%H:%M:%S".data,
    "%Y-%m-%dT%H:%M:%S.%f".data,
    "%Y-%m-%dT%H:%M:%SZ".data,
    "%Y-%m-%dT%H:%M:%S.%fZ".data,
    "%Y-%m-%dT%H:%M".data,
    "%Y-%m-%d %H:%M:%S".data,
    "%Y-%m-%d %H:%M".data,
    "%Y-%m-%d".data,
    "%d/%m/%Y".data,
    "%m/%d/%Y".data,
    "%d-%m-%Y".data,
    "%m-%d-%Y".data,
    "%B %d, %Y".data,
    "%d %B %Y".data,
    "%Y/%m/%d".data ]

/-- The format loop of parse_date: first format that parses wins. -/
def tryFormatsL : List (List Char) → List Char → Option PyDateTime
  | [], _ => none
  | f :: fs, s =>
    match strptime f s with
    | some d => some d
    | none => tryFormatsL fs s

/-- Greedy one-or-two-digit match at the end of the fallback regex. -/
def ymdDay (s : List Char) : Option Nat :=
  match s with
  | x :: y :: _ =>
    if isAsciiDigit x ∧ isAsciiDigit y then some (natOfDigits [x, y])
    else if isAsciiDigit x then some (natOfDigits [x])
    else none
  | [x] => if isAsciiDigit x then some (natOfDigits [x]) else none
  | [] => none

/-- Month-dash-day part of the fallback regex, greedy with backtracking. -/
def ymdMonthDay (s : List Char) : Option (Nat × Nat) :=
  match
    (match s with
     | m1 :: m2 :: '-' :: r2 =>
       if isAsciiDigit m1 ∧ isAsciiDigit m2 then
         (ymdDay r2).map (fun d => (natOfDigits [m1, m2], d))
       else none
     | _ => none) with
  | some r => some r
  | none =>
    match s with
    | m1 :: '-' :: r2 =>
      if isAsciiDigit m1 then (ymdDay r2).map (fun d => (natOfDigits [m1], d))
      else none
    | _ => none

/-- Anchored match of the fallback regex (four digits, dash, one or two
digits, dash, one or two digits) at the start of s. -/
def matchYmdAt (s : List Char) : Option (Nat × Nat × Nat) :=
  match s with
  | a :: b :: c :: d :: '-' :: rest =>
    if isAsciiDigit a ∧ isAsciiDigit b ∧ isAsciiDigit c ∧ isAsciiDigit d then
      (ymdMonthDay rest).map (fun md => (natOfDigits [a, b, c, d], md.1, md.2))
    else none
  | _ => none

/-- re.search for the fallback pattern: leftmost match. -/
def searchYmd : List Char → Option (Nat × Nat × Nat)
  | [] => none
  | c :: rest =>
    match matchYmdAt (c :: rest) with
    | some r => some r
    | none => searchYmd rest

/-- The input of parse_date: the publication-date field holds either a
string or (from some extractor libraries) a datetime object. -/
inductive DateInput
  | str : List Char → DateInput
  | dt : PyDateTime → DateInput
deriving DecidableEq, Repr

/-- parse_date from app/utils/date_filters/filters.py.  A falsy input (the
empty string) gives None; a datetime input is returned unchanged (datetime
objects are always truthy, so they reach the isinstance check); otherwise
the format list is tried in order, and on failure the regex fallback looks
for the leftmost year-month-day shaped substring, whose out-of-range values
make the datetime constructor raise, caught to give None. -/
def parse_date : DateInput → Option PyDateTime
  | DateInput.dt d => some d
  | DateInput.str s =>
    if s = [] then none
    else
      match tryFormatsL date_formats s with
      | some d => some d
      | none =>
        match searchYmd s with
        | some (y, m, d) =>
          if validYMD y m d then some ⟨y, m, d, 0, 0, 0, 0⟩ else none
        | none => none

/-- Lexicographic comparison of naive datetimes, as Python compares them. -/
def dtLe (a b : PyDateTime) : Bool :=
  if a.year ≠ b.year then a.year < b.year
  else if a.month ≠ b.month then a.month < b.month
  else if a.day ≠ b.day then a.day < b.day
  else if a.hour ≠ b.hour then a.hour < b.hour
  else if a.minute ≠ b.minute then a.minute < b.minute
  else if a.second ≠ b.second then a.second < b.second
  else a.microsecond ≤ b.microsecond

/-- One day earlier on the proleptic Gregorian calendar. -/
def predDay (t : PyDateTime) : PyDateTime :=
  if t.day > 1 then { t with day := t.day - 1 }
  else if t.month > 1 then
    { t with month := t.month - 1, day := daysInMonth t.year (t.month - 1) }
  else { t with year := t.year - 1, month := 12, day := 31 }

/-- now minus timedelta(days = n): exact calendar subtraction of whole
days, leaving the time of day unchanged. -/
def subDays (t : PyDateTime) : Nat → PyDateTime
  | 0 => t
  | n + 1 => subDays (predDay t) n

/-- An article as the date filters see it: a dict whose publication_date
key may be absent (none), or hold a string or datetime value. -/
structure FilterArticle where
  publication_date : Option DateInput
  url : List Char
deriving DecidableEq, Repr

/-- Python truthiness of the publication_date field: absent and the empty
string are falsy; datetime objects are always truthy. -/
def truthyPub : Option DateInput → Bool
  | none => false
  | some (DateInput.str s) => s ≠ []
  | some (DateInput.dt _) => true

/-- is_recent_article from filters.py, with the current time passed in for
datetime.utcnow().  The surrounding try/except of the source cannot fire in
the naive-datetime model, where the comparison is total. -/
def is_recent_article (article : FilterArticle) (max_age_days : Nat)
    (now : PyDateTime) : Bool :=
  if !truthyPub article.publication_date then false
  else
    match article.publication_date with
    | none => false
    | some di =>
      match parse_date di with
      | none => false
      | some pub_date => dtLe (subDays now max_age_days) pub_date

/-- filter_recent_articles from filters.py. -/
def filter_recent_articles (articles : List FilterArticle) (max_age_days : Nat)
    (now : PyDateTime) : List FilterArticle :=
  articles.filter (fun a => is_recent_article a max_age_days now)

end DateFilters

namespace Scraper

open PyStr Urllib Normalizer

/-- The article dict one scraping method builds.  Keys the source sets in
every method are plain fields; logo_url is only set by the playwright
method (absent and None are identified, both being falsy and never
distinguished downstream); source_domain is filled in by _scrape_article. -/
structure ArticleData where
  title : List Char
  content : Option (List Char)
  url : List Char
  language : List Char
  publication_date : Option (List Char)
  image_urls : List (List Char)
  logo_url : Option (List Char)
  source_domain : Option (List Char)
deriving DecidableEq, Repr

/-- Python truthiness of an optional string field. -/
def truthyOpt : Option (List Char) → Bool
  | none => false
  | some s => s ≠ []

/-- Outcome of one scraping method call on one URL: the method raised (the
chain catches it) or returned its dict, possibly None.  This is the
environment datum standing for the network and the extractor library. -/
inductive MethodOutcome
  | exn : MethodOutcome
  | ret : Option ArticleData → MethodOutcome
deriving DecidableEq, Repr

/-- A strategy attempt fails for the chain when it raises, returns None,
or returns a dict with falsy content. -/
def outcomeFails : MethodOutcome → Bool
  | MethodOutcome.exn => true
  | MethodOutcome.ret none => true
  | MethodOutcome.ret (some a) => !truthyOpt a.content

/-- The success path of _scrape_article: set source_domain from the URL,
and backfill logo_url through _extract_logo (environment datum logo) when
it is falsy.  _extract_logo catches its own exceptions and returns None,
so this step never raises. -/
def decorate (url : List Char) (a : ArticleData) (logo : Option (List Char)) :
    ArticleData :=
  let a1 := { a with source_domain := extract_domain url }
  if truthyOpt a1.logo_url then a1 else { a1 with logo_url := logo }

/-- _scrape_article from app/core/scraper.py over the outcome list of its
method chain (newspaper, trafilatura, goose, readability, playwright --
five outcomes in the source; the chain logic is uniform in the list).  Each
method sets the url key of its dict to its argument, so the url field of a
returned dict is overridden here.  A raising or empty-content method is
skipped; the first truthy-content dict is decorated and returned; when all
fail the result is None -- there is no error value. -/
def scrape_article (url : List Char) (outcomes : List MethodOutcome)
    (logo : Option (List Char)) : Option ArticleData :=
  match outcomes with
  | [] => none
  | MethodOutcome.exn :: rest => scrape_article url rest logo
  | MethodOutcome.ret none :: rest => scrape_article url rest logo
  | MethodOutcome.ret (some a) :: rest =>
    if truthyOpt a.content then some (decorate url { a with url := url } logo)
    else scrape_article url rest logo

/-- Outcome of newspaper.build on the normalized seed URL: it raised, or
produced a source whose articles carry these URLs. -/
inductive BuildResult
  | exn : List Char → BuildResult
  | ok : List (List Char) → BuildResult
deriving DecidableEq, Repr

/-- The environment of one seed URL: what newspaper.build reports, the
method-chain outcomes per article URL, and the logo lookup per URL. -/
structure SeedEnv where
  build : BuildResult
  methods : List Char → List MethodOutcome
  logo : List Char → Option (List Char)

/-- An entry of the errors list: the url and error keys of the dict the
source appends (the traceback key is not modelled). -/
structure ScrapeError where
  url : List Char
  error : List Char
deriving DecidableEq, Repr

/-- Scraper.scrape_url.  Normalization failure raises ValueError inside the
try, caught into one error entry keyed by the input URL; a newspaper.build
exception likewise.  With more than one discovered article the listing
branch fans out _scrape_article over the first ten article URLs; since
_scrape_article never raises, the isinstance(result, Exception) branch of
the loop is unreachable and failed sub-articles are silently dropped.
Otherwise the single-article branch scrapes the normalized URL and appends
its dict only on success. -/
def scrape_url (url : List Char) (env : SeedEnv) :
    List ArticleData × List ScrapeError :=
  match normalize_url url with
  | none => ([], [⟨url, "Error: Invalid URL: ".data ++ url⟩])
  | some nurl =>
    match env.build with
    | BuildResult.exn msg => ([], [⟨url, "Error: ".data ++ msg⟩])
    | BuildResult.ok articleUrls =>
      if articleUrls.length > 1 then
        ((articleUrls.take 10).filterMap
          (fun au => scrape_article au (env.methods au) (env.logo au)), [])
      else
        match scrape_article nurl (env.methods nurl) (env.logo nurl) with
        | some a => ([a], [])
        | none => ([], [])

/-- Scraper.scrape_urls.  scrape_url catches every exception and always
returns a pair, so the Exception and unexpected-result branches of the
gather loop are unreachable: the batch result is the concatenation of the
per-URL pairs in input order. -/
def scrape_urls (urls : List (List Char)) (envs : List Char → SeedEnv) :
    List ArticleData × List ScrapeError :=
  match urls with
  | [] => ([], [])
  | u :: rest =>
    let r := scrape_url u (envs u)
    let rr := scrape_urls rest envs
    (r.1 ++ rr.1, r.2 ++ rr.2)

/-- Number of result and error entries of a batch outcome keyed by a URL. -/
def countEntries (res : List ArticleData × List ScrapeError) (u : List Char) : Nat :=
  (res.1.filter (fun a => a.url = u)).length +
    (res.2.filter (fun e => e.url = u)).length

/-- Total number of entries of a batch outcome. -/
def totalEntries (res : List ArticleData × List ScrapeError) : Nat :=
  res.1.length + res.2.length

end Scraper

namespace SpecSide

open PyStr Urllib Scraper

/-- Python str.strip whitespace characters. -/
def isPySpace (c : Char) : Bool :=
  c = ' ' || c = '\t' || c = '\n' || c = '\r' || c = '\x0b' || c = '\x0c'

/-- Python s.strip(): whitespace removed from both ends. -/
def pyStrip (s : List Char) : List Char :=
  ((s.dropWhile isPySpace).reverse.dropWhile isPySpace).reverse

/-- Modelled from the words of the specification (claim C2): the body text
of a strategy result is usable when it is non-empty after trimming. -/
def specTrimmedNonempty : Option (List Char) → Bool
  | none => false
  | some s => pyStrip s ≠ []

/-- Modelled from the words of the specification (claim C2): the chain
returns the output of the first strategy whose body text is non-empty
after trimming.  Stated for comparison against scrape_article. -/
def specFirstTrimmed : List MethodOutcome → Option ArticleData
  | [] => none
  | MethodOutcome.exn :: rest => specFirstTrimmed rest
  | MethodOutcome.ret none :: rest => specFirstTrimmed rest
  | MethodOutcome.ret (some a) :: rest =>
    if specTrimmedNonempty a.content then some a else specFirstTrimmed rest

/-- Modelled from the words of the specification (claim C4): a key is on
the deny-list of the claim when it matches utm_* or is one of the eight
named keys. -/
def claimDeniedKey (k : List Char) : Bool :=
  k.take 4 = "utm_".data ||
    decide (k ∈ [ "fbclid".data, "gclid".data, "msclkid".data, "ref".data,
      "source".data, "referrer".data, "mc_cid".data, "mc_eid".data ])

/-- The query component a parse of the given URL text reports (empty for a
parse error); used to state properties of normalize_url outputs. -/
def queryOf (v : List Char) : List Char :=
  match urlparseE v with
  | some c => c.query
  | none => []

end SpecSide

/-
Lemma development.  Everything below proves properties of the definitions
above; no further model definitions appear.
-/

namespace PyStr

@[simp] theorem concatMap_nil (f : α → List β) : concatMap f [] = [] := rfl

@[simp] theorem concatMap_cons (f : α → List β) (a : α) (l : List α) :
    concatMap f (a :: l) = f a ++ concatMap f l := rfl

@[simp] theorem concatMap_append (f : α → List β) (l₁ l₂ : List α) :
    concatMap f (l₁ ++ l₂) = concatMap f l₁ ++ concatMap f l₂ := by
  induction l₁ with
  | nil => rfl
  | cons a l ih => simp [ih]

theorem mem_concatMap (f : α → List β) (l : List α) (x : β) :
    x ∈ concatMap f l ↔ ∃ a ∈ l, x ∈ f a := by
  induction l with
  | nil => simp
  | cons a l ih => simp [ih]

theorem concatMap_eq_nil_iff (f : α → List β) (l : List α) :
    concatMap f l = [] ↔ ∀ a ∈ l, f a = [] := by
  induction l with
  | nil => simp
  | cons a l ih => simp [ih]

@[simp] theorem breakAt_nil (p : Char → Bool) : breakAt p [] = ([], []) := rfl

theorem breakAt_cons_pos (p : Char → Bool) (c : Char) (s : List Char) (h : p c = true) :
    breakAt p (c :: s) = ([], c :: s) := by
  simp [breakAt, h]

theorem breakAt_cons_neg (p : Char → Bool) (c : Char) (s : List Char) (h : p c = false) :
    breakAt p (c :: s) = ((c :: (breakAt p s).1, (breakAt p s).2)) := by
  simp [breakAt, h]

/-- The two components of breakAt reassemble to the input. -/
theorem breakAt_append_eq (p : Char → Bool) (s : List Char) :
    (breakAt p s).1 ++ (breakAt p s).2 = s := by
  induction s with
  | nil => rfl
  | cons c s ih =>
    by_cases h : p c = true
    · simp [breakAt_cons_pos _ _ _ h]
    · simp only [Bool.not_eq_true] at h
      simp [breakAt_cons_neg _ _ _ h, ih]

/-- No element of the first component of breakAt satisfies p. -/
theorem breakAt_fst_not (p : Char → Bool) (s : List Char) :
    ∀ c ∈ (breakAt p s).1, p c = false := by
  induction s with
  | nil => simp
  | cons c s ih =>
    by_cases h : p c = true
    · simp [breakAt_cons_pos _ _ _ h]
    · simp only [Bool.not_eq_true] at h
      simp only [breakAt_cons_neg _ _ _ h, List.mem_cons]
      rintro x (rfl | hx)
      · exact h
      · exact ih x hx

/-- The second component of breakAt is empty or starts with an element
satisfying p. -/
theorem breakAt_snd_head (p : Char → Bool) (s : List Char) :
    (breakAt p s).2 = [] ∨ ∃ c t, (breakAt p s).2 = c :: t ∧ p c = true := by
  induction s with
  | nil => simp
  | cons c s ih =>
    by_cases h : p c = true
    · exact Or.inr ⟨c, s, by simp [breakAt_cons_pos _ _ _ h], h⟩
    · simp only [Bool.not_eq_true] at h
      simpa [breakAt_cons_neg _ _ _ h] using ih

/-- breakAt on a concatenation whose first part avoids p and whose second
part starts with a p element. -/
theorem breakAt_append_of (p : Char → Bool) (a : List Char) (c : Char) (b : List Char)
    (ha : ∀ x ∈ a, p x = false) (hc : p c = true) :
    breakAt p (a ++ c :: b) = (a, c :: b) := by
  induction a with
  | nil => simp [breakAt_cons_pos _ _ _ hc]
  | cons x a ih =>
    have hx : p x = false := ha x (by simp)
    have ih2 := ih (fun y hy => ha y (by simp [hy]))
    simp [breakAt_cons_neg _ _ _ hx, ih2]

/-- breakAt on a list with no p element. -/
theorem breakAt_all_neg (p : Char → Bool) (s : List Char)
    (hs : ∀ x ∈ s, p x = false) :
    breakAt p s = (s, []) := by
  induction s with
  | nil => rfl
  | cons x a ih =>
    have hx : p x = false := hs x (by simp)
    have ih2 := ih (fun y hy => hs y (by simp [hy]))
    simp [breakAt_cons_neg _ _ _ hx, ih2]

/-- Elements of either breakAt component come from the input. -/
theorem breakAt_subset (p : Char → Bool) (s : List Char) :
    (∀ c ∈ (breakAt p s).1, c ∈ s) ∧ (∀ c ∈ (breakAt p s).2, c ∈ s) := by
  constructor <;> intro c hc <;> rw [← breakAt_append_eq p s] <;>
    simp only [List.mem_append] <;> [exact Or.inl hc; exact Or.inr hc]

theorem hasChar_iff_mem (s : List Char) (c : Char) : hasChar s c = true ↔ c ∈ s := by
  simp only [hasChar, List.any_eq_true, decide_eq_true_eq]
  constructor
  · rintro ⟨x, hx, rfl⟩; exact hx
  · intro h; exact ⟨c, h, rfl⟩

theorem hasChar_eq_false_iff (s : List Char) (c : Char) :
    hasChar s c = false ↔ c ∉ s := by
  rw [← Bool.not_eq_true, not_iff_not, hasChar_iff_mem]

theorem splitSep_ne_nil (sep : Char) (s : List Char) : splitSep sep s ≠ [] := by
  cases s with
  | nil => simp [splitSep]
  | cons c rest =>
    by_cases h : c = sep
    · simp [splitSep, h]
    · simp only [splitSep, if_neg h]
      rcases hs : splitSep sep rest with _ | ⟨g, gs⟩ <;> simp

/-- splitSep on a list with no separator yields the single chunk. -/
theorem splitSep_no_sep (sep : Char) (s : List Char) (hs : ∀ x ∈ s, x ≠ sep) :
    splitSep sep s = [s] := by
  induction s with
  | nil => rfl
  | cons c rest ih =>
    have hc : c ≠ sep := hs c (by simp)
    have ih2 := ih (fun y hy => hs y (by simp [hy]))
    simp [splitSep, hc, ih2]

/-- splitSep peels off a separator-free chunk before a separator. -/
theorem splitSep_chunk (sep : Char) (a r : List Char) (ha : ∀ x ∈ a, x ≠ sep) :
    splitSep sep (a ++ sep :: r) = a :: splitSep sep r := by
  induction a with
  | nil => simp [splitSep]
  | cons x a ih =>
    have hx : x ≠ sep := ha x (by simp)
    have ih2 := ih (fun y hy => ha y (by simp [hy]))
    simp only [List.cons_append, splitSep, if_neg hx, List.append_eq, ih2]

/-- Chunks of splitSep are made of input elements. -/
theorem splitSep_subset (sep : Char) (s : List Char) :
    ∀ ch ∈ splitSep sep s, ∀ x ∈ ch, x ∈ s := by
  induction s with
  | nil => simp [splitSep]
  | cons c rest ih =>
    by_cases h : c = sep
    · simp only [splitSep, if_pos h, List.mem_cons]
      rintro ch (rfl | hch) x hx
      · simp at hx
      · exact Or.inr (ih ch hch x hx)
    · simp only [splitSep, if_neg h]
      rcases hs : splitSep sep rest with _ | ⟨g, gs⟩
      · simp
      · intro ch hch x hx
        rcases List.mem_cons.mp hch with rfl | hch2
        · rcases List.mem_cons.mp hx with rfl | hx2
          · exact List.mem_cons_self x rest
          · exact List.mem_cons_of_mem _ (ih g (hs ▸ List.mem_cons_self g gs) x hx2)
        · exact List.mem_cons_of_mem _
            (ih ch (hs ▸ List.mem_cons_of_mem g hch2) x hx)

end PyStr

namespace Urllib

open PyStr

theorem hexDigitU_val : ∀ m, m < 16 →
    isHexDigit (hexDigitU m) = true ∧ hexVal (hexDigitU m) = m := by decide

theorem hexDigitU_avoid : ∀ m, m < 16 →
    hexDigitU m ≠ '&' ∧ hexDigitU m ≠ '=' ∧ hexDigitU m ≠ '#' ∧
      hexDigitU m ≠ '?' ∧ hexDigitU m ≠ '+' ∧ hexDigitU m ≠ '%' ∧
      unsafeUrlByte (hexDigitU m) = false := by decide

theorem alwaysSafe_avoid (c : Char) (h : alwaysSafe c = true) :
    c ≠ '&' ∧ c ≠ '=' ∧ c ≠ '#' ∧ c ≠ '?' ∧ c ≠ '+' ∧ c ≠ '%' ∧ c ≠ ' ' ∧
      unsafeUrlByte c = false := by
  have h8 : unsafeUrlByte c = false := by
    by_cases hu : unsafeUrlByte c = true
    · simp only [unsafeUrlByte, Bool.or_eq_true, decide_eq_true_eq] at hu
      rcases hu with (rfl | rfl) | rfl <;> exact absurd h (by decide)
    · simpa using hu
  refine ⟨?_, ?_, ?_, ?_, ?_, ?_, ?_, h8⟩ <;> (rintro rfl; exact absurd h (by decide))

theorem quotePlusChar_ne_nil (c : Char) : quotePlusChar c ≠ [] := by
  unfold quotePlusChar
  split
  · simp
  · split <;> simp

theorem quotePlus_eq_nil_iff (s : List Char) : quotePlus s = [] ↔ s = [] := by
  cases s with
  | nil => simp [quotePlus]
  | cons c t =>
    simp only [quotePlus, concatMap_cons]
    constructor
    · intro h1
      exact absurd (List.append_eq_nil.mp h1).1 (quotePlusChar_ne_nil c)
    · intro h; exact absurd h (by simp)

/-- Every character of a quoted string avoids the URL delimiters, the plus
replacement and the unsafe bytes do not reintroduce them. -/
theorem mem_quotePlusChar_avoid (c x : Char) (hx : x ∈ quotePlusChar c) :
    x ≠ '&' ∧ x ≠ '=' ∧ x ≠ '#' ∧ x ≠ '?' ∧ unsafeUrlByte x = false := by
  unfold quotePlusChar at hx
  split at hx
  · rcases List.mem_singleton.mp hx with rfl
    have h := alwaysSafe_avoid x (by assumption)
    exact ⟨h.1, h.2.1, h.2.2.1, h.2.2.2.1, h.2.2.2.2.2.2.2⟩
  · split at hx
    · rcases List.mem_singleton.mp hx with rfl
      refine ⟨by decide, by decide, by decide, by decide, by decide⟩
    · rcases List.mem_cons.mp hx with rfl | hx2
      · refine ⟨by decide, by decide, by decide, by decide, by decide⟩
      · have h16a : c.toNat % 256 / 16 < 16 := by omega
        have h16b : c.toNat % 16 < 16 := by omega
        simp only [hexByteU, List.mem_cons] at hx2
        rcases hx2 with rfl | rfl | h0
        · have h := hexDigitU_avoid _ h16a
          exact ⟨h.1, h.2.1, h.2.2.1, h.2.2.2.1, h.2.2.2.2.2.2⟩
        · have h := hexDigitU_avoid _ h16b
          exact ⟨h.1, h.2.1, h.2.2.1, h.2.2.2.1, h.2.2.2.2.2.2⟩
        · simp at h0

theorem quotePlus_avoid (s : List Char) (x : Char) (hx : x ∈ quotePlus s) :
    x ≠ '&' ∧ x ≠ '=' ∧ x ≠ '#' ∧ x ≠ '?' ∧ unsafeUrlByte x = false := by
  rcases (mem_concatMap _ s x).mp hx with ⟨c, -, hc⟩
  exact mem_quotePlusChar_avoid c x hc

theorem replacePlus_append (a b : List Char) :
    replacePlus (a ++ b) = replacePlus a ++ replacePlus b := by
  simp [replacePlus]

theorem unquoteBytes_perc (a b : Char) (rest : List Char) :
    unquoteBytes ('%' :: a :: b :: rest) =
      if isHexDigit a && isHexDigit b then
        Char.ofNat (16 * hexVal a + hexVal b) :: unquoteBytes rest
      else '%' :: unquoteBytes (a :: b :: rest) := rfl

theorem unquoteBytes_cons_ne (c : Char) (t : List Char) (h : c ≠ '%') :
    unquoteBytes (c :: t) = c :: unquoteBytes t := by
  rw [unquoteBytes.eq_def]
  split
  · rename_i heq
    injection heq with h1 h2
    exact absurd h1 h
  · rename_i c2 rest2 heq
    injection heq with h1 h2
    subst h1; subst h2
    rfl
  · rename_i heq
    cases heq

/-- Decoding undoes the encoding of one byte, whatever follows. -/
theorem unquote_quoteChar (c : Char) (hc : c.toNat < 256) (t : List Char) :
    unquoteBytes (replacePlus (quotePlusChar c) ++ t) = c :: unquoteBytes t := by
  unfold quotePlusChar
  split
  · rename_i hsafe
    have h := alwaysSafe_avoid c hsafe
    simp only [replacePlus, List.map_cons, List.map_nil, if_neg h.2.2.2.2.1,
      List.cons_append, List.nil_append]
    exact unquoteBytes_cons_ne c t h.2.2.2.2.2.1
  · split
    · rename_i hsp
      subst hsp
      simp only [replacePlus, List.map_cons, List.map_nil, if_pos rfl,
        List.cons_append, List.nil_append]
      exact unquoteBytes_cons_ne ' ' t (by decide)
    · have h16a : c.toNat % 256 / 16 < 16 := by omega
      have h16b : c.toNat % 16 < 16 := by omega
      have hva := hexDigitU_val _ h16a
      have hvb := hexDigitU_val _ h16b
      have hpa := (hexDigitU_avoid _ h16a).2.2.2.2.1
      have hpb := (hexDigitU_avoid _ h16b).2.2.2.2.1
      simp only [hexByteU, replacePlus, List.map_cons, List.map_nil,
        if_neg (by decide : ¬('%' : Char) = '+'), if_neg hpa, if_neg hpb,
        List.cons_append, List.nil_append]
      rw [unquoteBytes_perc]
      rw [if_pos (by rw [hva.1, hvb.1]; rfl), hva.2, hvb.2]
      have : 16 * (c.toNat % 256 / 16) + c.toNat % 16 = c.toNat := by omega
      rw [this, Char.ofNat_toNat]

/-- unquote_plus inverts quote_plus on byte strings. -/
theorem unquotePlus_quotePlus (s : List Char) (hs : allBytes s) :
    unquotePlus (quotePlus s) = s := by
  induction s with
  | nil => rfl
  | cons c t ih =>
    have hc : c.toNat < 256 := hs c (by simp)
    have ht : allBytes t := fun x hx => hs x (by simp [hx])
    simp only [quotePlus, concatMap_cons] at *
    unfold unquotePlus
    rw [replacePlus_append, unquote_quoteChar c hc, ← unquotePlus, ih ht]

theorem charLe_toNat {a b : Char} (h : a ≤ b) : a.toNat ≤ b.toNat := h

theorem charOfNat_toNat {n : Nat} (h : n < 55296) : (Char.ofNat n).toNat = n := by
  have hv : n.isValidChar := Or.inl h
  unfold Char.ofNat
  split
  · rfl
  · contradiction

theorem hexVal_lt_16 (c : Char) (h : isHexDigit c = true) : hexVal c < 16 := by
  simp only [isHexDigit, Bool.or_eq_true] at h
  unfold hexVal
  split
  · rename_i hd
    simp only [isAsciiDigit, Bool.and_eq_true, decide_eq_true_eq] at hd
    have g1 := charLe_toNat hd.1
    have g2 := charLe_toNat hd.2
    have e1 : ('0' : Char).toNat = 48 := by decide
    have e2 : ('9' : Char).toNat = 57 := by decide
    omega
  · rename_i hd
    split
    · rename_i haf
      simp only [Bool.and_eq_true, decide_eq_true_eq] at haf
      have g1 := charLe_toNat haf.1
      have g2 := charLe_toNat haf.2
      have e3 : ('a' : Char).toNat = 97 := by decide
      have e4 : ('f' : Char).toNat = 102 := by decide
      omega
    · rename_i haf
      rcases h with (h1 | h2) | h3
      · exact absurd h1 hd
      · exact absurd h2 haf
      · simp only [Bool.and_eq_true, decide_eq_true_eq] at h3
        have g1 := charLe_toNat h3.1
        have g2 := charLe_toNat h3.2
        have e5 : ('A' : Char).toNat = 65 := by decide
        have e6 : ('F' : Char).toNat = 70 := by decide
        omega

theorem unquoteBytes_single (a : Char) : unquoteBytes [a] = [a] := by
  rw [unquoteBytes.eq_def]
  split
  · rename_i heq
    injection heq with h1 h2
    cases h2
  · rename_i c2 rest2 heq
    injection heq with h1 h2
    subst h1; subst h2
    rfl
  · rename_i heq
    cases heq

theorem unquoteBytes_pair (c a : Char) : unquoteBytes [c, a] = [c, a] := by
  rw [unquoteBytes.eq_def]
  split
  · rename_i heq
    injection heq with h1 h2
    injection h2 with h3 h4
    cases h4
  · rename_i c2 rest2 heq
    injection heq with h1 h2
    subst h1; subst h2
    rw [unquoteBytes_single]
  · rename_i heq
    cases heq

/-- Decoded strings stay byte strings. -/
theorem allBytes_unquoteBytes (s : List Char) (hs : allBytes s) :
    allBytes (unquoteBytes s) := by
  induction s using unquoteBytes.induct with
  | case1 a b rest hhex ih =>
    rw [unquoteBytes_perc, if_pos hhex]
    simp only [Bool.and_eq_true] at hhex
    intro x hx
    rcases List.mem_cons.mp hx with rfl | hx2
    · have hlt : 16 * hexVal a + hexVal b < 256 := by
        have := hexVal_lt_16 a hhex.1
        have := hexVal_lt_16 b hhex.2
        omega
      rw [charOfNat_toNat (by omega)]
      exact hlt
    · exact ih (fun y hy => hs y (by simp [hy])) x hx2
  | case2 a b rest hhex ih =>
    rw [unquoteBytes_perc, if_neg hhex]
    intro x hx
    rcases List.mem_cons.mp hx with rfl | hx2
    · decide
    · exact ih (fun y hy => hs y (by simp [hy])) x hx2
  | case3 c rest hno ih =>
    by_cases hc : c = '%'
    · subst hc
      rcases rest with _ | ⟨a, _ | ⟨b, r⟩⟩
      · rw [unquoteBytes_single]; exact hs
      · rw [unquoteBytes_pair]; exact hs
      · exact absurd (hno a b r rfl rfl) not_false
    · rw [unquoteBytes_cons_ne c rest hc]
      intro x hx
      rcases List.mem_cons.mp hx with rfl | hx2
      · exact hs x (by simp)
      · exact ih (fun y hy => hs y (by simp [hy])) x hx2
  | case4 => exact hs

theorem unquoteBytes_ne_nil (s : List Char) (hs : s ≠ []) :
    unquoteBytes s ≠ [] := by
  induction s using unquoteBytes.induct with
  | case1 a b rest hhex ih =>
    rw [unquoteBytes_perc, if_pos hhex]
    simp
  | case2 a b rest hhex ih =>
    rw [unquoteBytes_perc, if_neg hhex]
    simp
  | case3 c rest hno ih =>
    by_cases hc : c = '%'
    · subst hc
      rcases rest with _ | ⟨a, _ | ⟨b, r⟩⟩
      · rw [unquoteBytes_single]; simp
      · rw [unquoteBytes_pair]; simp
      · exact absurd (hno a b r rfl rfl) not_false
    · rw [unquoteBytes_cons_ne c rest hc]
      simp
  | case4 => exact absurd rfl hs

theorem allBytes_replacePlus (s : List Char) (hs : allBytes s) :
    allBytes (replacePlus s) := by
  intro x hx
  simp only [replacePlus, List.mem_map] at hx
  rcases hx with ⟨c, hc, rfl⟩
  split
  · decide
  · exact hs c hc

theorem allBytes_unquotePlus (s : List Char) (hs : allBytes s) :
    allBytes (unquotePlus s) :=
  allBytes_unquoteBytes _ (allBytes_replacePlus s hs)

theorem unquotePlus_ne_nil (s : List Char) (hs : s ≠ []) :
    unquotePlus s ≠ [] := by
  apply unquoteBytes_ne_nil
  simpa [replacePlus] using hs

theorem joinAmp_cons_ne_nil (ch : List Char) (rest : List (List Char))
    (h : ch ≠ []) : joinAmp (ch :: rest) ≠ [] := by
  cases rest with
  | nil => simpa [joinAmp]
  | cons y ys => simp [joinAmp, h]

/-- splitSep undoes joinAmp when no chunk holds the separator. -/
theorem splitSep_joinAmp (chunks : List (List Char))
    (h : ∀ ch ∈ chunks, ∀ x ∈ ch, x ≠ '&') (hne : chunks ≠ []) :
    splitSep '&' (joinAmp chunks) = chunks := by
  induction chunks with
  | nil => exact absurd rfl hne
  | cons ch rest ih =>
    cases rest with
    | nil =>
      simp only [joinAmp]
      exact splitSep_no_sep '&' ch (h ch (by simp))
    | cons ch2 rest2 =>
      have step : joinAmp (ch :: ch2 :: rest2) = ch ++ '&' :: joinAmp (ch2 :: rest2) := rfl
      rw [step, splitSep_chunk '&' ch _ (h ch (by simp))]
      rw [ih (fun c hc x hx => h c (by simp [hc]) x hx) (by simp)]

/-- One encoded pair parses back to itself. -/
theorem qslChunk_enc (k v : List Char) (hk : allBytes k) (hv : allBytes v)
    (hvne : v ≠ []) :
    qslChunk (quotePlus k ++ '=' :: quotePlus v) = some (k, v) := by
  unfold qslChunk
  rw [breakAt_append_of _ _ _ _
    (fun x hx => by simpa using (quotePlus_avoid k x hx).2.1) (by decide)]
  simp only
  rw [if_neg (by simpa using (quotePlus_eq_nil_iff v).not.mpr hvne)]
  rw [unquotePlus_quotePlus k hk, unquotePlus_quotePlus v hv]

theorem filterMap_qslChunk_map (pairs : List (List Char × List Char))
    (h : ∀ kv ∈ pairs, allBytes kv.1 ∧ allBytes kv.2 ∧ kv.2 ≠ []) :
    (pairs.map (fun kv => quotePlus kv.1 ++ '=' :: quotePlus kv.2)).filterMap
      qslChunk = pairs := by
  induction pairs with
  | nil => rfl
  | cons kv rest ih =>
    have hkv := h kv (by simp)
    simp only [List.map_cons]
    rw [List.filterMap_cons_some
      (qslChunk_enc kv.1 kv.2 hkv.1 hkv.2.1 hkv.2.2)]
    rw [ih (fun x hx => h x (by simp [hx]))]

/-- parse_qsl inverts the urlencode pair serialization on byte pairs with
nonempty values. -/
theorem parseQsl_enc (pairs : List (List Char × List Char))
    (h : ∀ kv ∈ pairs, allBytes kv.1 ∧ allBytes kv.2 ∧ kv.2 ≠ []) :
    parseQsl (joinAmp (pairs.map
      (fun kv => quotePlus kv.1 ++ '=' :: quotePlus kv.2))) = pairs := by
  cases pairs with
  | nil => rfl
  | cons kv rest =>
    have hchunks : ∀ ch ∈ (kv :: rest).map
        (fun kv => quotePlus kv.1 ++ '=' :: quotePlus kv.2),
        ∀ x ∈ ch, x ≠ '&' := by
      intro ch hch x hx
      rcases List.mem_map.mp hch with ⟨kv2, -, rfl⟩
      rcases List.mem_append.mp hx with hx1 | hx2
      · exact (quotePlus_avoid _ x hx1).1
      · rcases List.mem_cons.mp hx2 with rfl | hx3
        · decide
        · exact (quotePlus_avoid _ x hx3).1
    have hjoin_ne : joinAmp ((kv :: rest).map
        (fun kv => quotePlus kv.1 ++ '=' :: quotePlus kv.2)) ≠ [] := by
      simp only [List.map_cons]
      exact joinAmp_cons_ne_nil _ _ (by simp)
    unfold parseQsl
    rw [if_neg (by simpa using hjoin_ne)]
    rw [splitSep_joinAmp _ hchunks (by simp)]
    exact filterMap_qslChunk_map (kv :: rest) h

/-- Properties of the pairs parse_qsl reports: names and values are byte
strings made of decoded input characters, and values are nonempty. -/
theorem parseQsl_props (qs : List Char) (hqs : allBytes qs) :
    ∀ kv ∈ parseQsl qs, allBytes kv.1 ∧ allBytes kv.2 ∧ kv.2 ≠ [] := by
  intro kv hkv
  unfold parseQsl at hkv
  split at hkv
  · simp at hkv
  · rcases List.mem_filterMap.mp hkv with ⟨ch, hch, hchunk⟩
    have hchsub : ∀ x ∈ ch, x ∈ qs := splitSep_subset '&' qs ch hch
    have hchb : allBytes ch := fun x hx => hqs x (hchsub x hx)
    unfold qslChunk at hchunk
    split at hchunk
    · rename_i n v heq
      split at hchunk
      · cases hchunk
      · rename_i hvne
        injection hchunk with hkveq
        subst hkveq
        have hnsub := (breakAt_subset (fun c => c = '=') ch).1
        have hvsub := (breakAt_subset (fun c => c = '=') ch).2
        rw [heq] at hnsub hvsub
        simp only at hnsub hvsub
        have hnb : allBytes n := fun x hx => hchb x (hnsub x hx)
        have hvb : allBytes v := fun x hx => hchb x (hvsub x (by simp [hx]))
        exact ⟨allBytes_unquotePlus n hnb, allBytes_unquotePlus v hvb,
          unquotePlus_ne_nil v hvne⟩
    · cases hchunk

theorem addPair_fresh (d : List (List Char × List (List Char))) (k v : List Char)
    (hk : k ∉ d.map Prod.fst) : addPair d k v = d ++ [(k, [v])] := by
  induction d with
  | nil => rfl
  | cons kv rest ih =>
    rcases kv with ⟨k0, vs0⟩
    simp only [List.map_cons, List.mem_cons] at hk
    push_neg at hk
    simp only [addPair, if_neg (Ne.symm hk.1)]
    rw [ih hk.2, List.cons_append]

theorem addPair_extend (acc : List (List Char × List (List Char)))
    (k v : List Char) (vs : List (List Char)) (hk : k ∉ acc.map Prod.fst) :
    addPair (acc ++ [(k, vs)]) k v = acc ++ [(k, vs ++ [v])] := by
  induction acc with
  | nil => simp [addPair]
  | cons kv rest ih =>
    rcases kv with ⟨k0, vs0⟩
    simp only [List.map_cons, List.mem_cons] at hk
    push_neg at hk
    simp only [List.cons_append, addPair, List.append_eq,
      if_neg (Ne.symm hk.1)]
    rw [ih hk.2]

/-- Folding the values of one fresh key groups them into one entry. -/
theorem foldl_value_block (acc : List (List Char × List (List Char)))
    (k : List Char) (ws : List (List Char)) (vs : List (List Char))
    (hk : k ∉ acc.map Prod.fst) :
    List.foldl (fun d kv => addPair d kv.1 kv.2) (acc ++ [(k, ws)])
      (vs.map (fun v => (k, v))) = acc ++ [(k, ws ++ vs)] := by
  induction vs generalizing ws with
  | nil => simp
  | cons v vr ih =>
    simp only [List.map_cons, List.foldl_cons]
    rw [addPair_extend acc k v ws hk, ih (ws ++ [v])]
    simp

/-- The dict-building fold recovers a grouped dict from its flattening. -/
theorem foldl_ungroup (d acc : List (List Char × List (List Char)))
    (hnd : (acc.map Prod.fst ++ d.map Prod.fst).Nodup)
    (hvals : ∀ kv ∈ d, kv.2 ≠ []) :
    List.foldl (fun d kv => addPair d kv.1 kv.2) acc (ungroup d) = acc ++ d := by
  induction d generalizing acc with
  | nil => simp [ungroup]
  | cons kv rest ih =>
    obtain ⟨k, vs⟩ := kv
    have hk : k ∉ acc.map Prod.fst := by
      rcases List.nodup_append.mp hnd with ⟨-, -, hdisj⟩
      intro hmem
      exact hdisj hmem (by simp)
    rcases hvs : vs with _ | ⟨v0, vrest⟩
    · exact absurd hvs (hvals (k, vs) (by simp))
    · simp only [ungroup, concatMap_cons]
      rw [List.foldl_append]
      have step1 : List.foldl (fun d kv => addPair d kv.1 kv.2) acc
          ((v0 :: vrest).map (fun v => (k, v))) = acc ++ [(k, v0 :: vrest)] := by
        simp only [List.map_cons, List.foldl_cons]
        rw [show addPair acc k v0 = acc ++ [(k, [v0])] from addPair_fresh acc k v0 hk]
        rw [foldl_value_block acc k [v0] vrest hk]
        rfl
      rw [step1, ← ungroup]
      have hnd2 : ((acc ++ [(k, v0 :: vrest)]).map Prod.fst ++
          rest.map Prod.fst).Nodup := by
        simp only [List.map_append, List.map_cons, List.map_nil]
        have : acc.map Prod.fst ++ [k] ++ rest.map Prod.fst =
            acc.map Prod.fst ++ k :: rest.map Prod.fst := by
          simp
        rw [this]
        simpa using hnd
      rw [ih (acc ++ [(k, v0 :: vrest)]) hnd2
        (fun kv2 hkv2 => hvals kv2 (by simp [hkv2]))]
      simp

/-- groupQs inverts ungroup on dicts with distinct keys and nonempty value
lists. -/
theorem groupQs_ungroup (d : List (List Char × List (List Char)))
    (hnd : (d.map Prod.fst).Nodup) (hvals : ∀ kv ∈ d, kv.2 ≠ []) :
    groupQs (ungroup d) = d := by
  unfold groupQs
  rw [foldl_ungroup d [] (by simpa using hnd) hvals]
  rfl

theorem addPair_keys (d : List (List Char × List (List Char))) (k v : List Char) :
    (addPair d k v).map Prod.fst =
      if k ∈ d.map Prod.fst then d.map Prod.fst else d.map Prod.fst ++ [k] := by
  induction d with
  | nil => simp [addPair]
  | cons kv rest ih =>
    by_cases hk : kv.1 = k
    · rcases kv with ⟨k0, vs⟩
      simp only at hk
      subst hk
      simp [addPair]
    · rcases kv with ⟨k0, vs⟩
      simp only at hk
      simp only [addPair, if_neg hk, List.map_cons, ih]
      by_cases hmem : k ∈ rest.map Prod.fst
      · simp [hmem, Ne.symm hk]
      · simp [hmem, Ne.symm hk]

theorem addPair_nodup (d : List (List Char × List (List Char))) (k v : List Char)
    (hnd : (d.map Prod.fst).Nodup) : ((addPair d k v).map Prod.fst).Nodup := by
  rw [addPair_keys]
  split
  · exact hnd
  · rename_i hk
    rw [List.nodup_append]
    exact ⟨hnd, List.nodup_singleton k, by simpa using hk⟩

theorem addPair_vals_ne (d : List (List Char × List (List Char))) (k v : List Char)
    (hvals : ∀ kv ∈ d, kv.2 ≠ []) : ∀ kv ∈ addPair d k v, kv.2 ≠ [] := by
  induction d with
  | nil => simp [addPair]
  | cons kv0 rest ih =>
    rcases kv0 with ⟨k0, vs⟩
    intro kv hkv
    simp only [addPair] at hkv
    split at hkv
    · rcases List.mem_cons.mp hkv with rfl | h2
      · simp
      · exact hvals kv (by simp [h2])
    · rcases List.mem_cons.mp hkv with rfl | h2
      · exact hvals _ (by simp)
      · exact ih (fun x hx => hvals x (by simp [hx])) _ h2

theorem groupQs_nodup (pairs : List (List Char × List Char)) :
    ((groupQs pairs).map Prod.fst).Nodup := by
  suffices h : ∀ acc : List (List Char × List (List Char)),
      (acc.map Prod.fst).Nodup →
      ((List.foldl (fun d kv => addPair d kv.1 kv.2) acc pairs).map Prod.fst).Nodup by
    exact h [] (by simp)
  induction pairs with
  | nil => intro acc hacc; exact hacc
  | cons kv rest ih =>
    intro acc hacc
    exact ih (addPair acc kv.1 kv.2) (addPair_nodup acc kv.1 kv.2 hacc)

theorem groupQs_vals_ne (pairs : List (List Char × List Char)) :
    ∀ kv ∈ groupQs pairs, kv.2 ≠ [] := by
  suffices h : ∀ acc : List (List Char × List (List Char)),
      (∀ kv ∈ acc, kv.2 ≠ []) →
      ∀ kv ∈ List.foldl (fun d kv => addPair d kv.1 kv.2) acc pairs, kv.2 ≠ [] by
    exact h [] (by simp)
  induction pairs with
  | nil => intro acc hacc; exact hacc
  | cons kv rest ih =>
    intro acc hacc
    exact ih (addPair acc kv.1 kv.2) (addPair_vals_ne acc kv.1 kv.2 hacc)

theorem addPair_from (P Q : List Char → Prop)
    (d : List (List Char × List (List Char))) (k v : List Char)
    (hd : ∀ kv ∈ d, P kv.1 ∧ ∀ w ∈ kv.2, Q w) (hk : P k) (hv : Q v) :
    ∀ kv ∈ addPair d k v, P kv.1 ∧ ∀ w ∈ kv.2, Q w := by
  induction d with
  | nil =>
    simp only [addPair]
    intro kv hkv
    rcases List.mem_cons.mp hkv with rfl | h2
    · exact ⟨hk, by intro w hw; rcases List.mem_singleton.mp hw with rfl; exact hv⟩
    · simp at h2
  | cons kv0 rest ih =>
    rcases kv0 with ⟨k0, vs⟩
    intro kv hkv
    simp only [addPair] at hkv
    split at hkv
    · rcases List.mem_cons.mp hkv with rfl | h2
      · refine ⟨(hd (k0, vs) (by simp)).1, ?_⟩
        intro w hw
        rcases List.mem_append.mp hw with hw1 | hw2
        · exact (hd (k0, vs) (by simp)).2 w hw1
        · rcases List.mem_singleton.mp hw2 with rfl; exact hv
      · exact hd kv (by simp [h2])
    · rcases List.mem_cons.mp hkv with rfl | h2
      · exact hd _ (by simp)
      · exact ih (fun x hx => hd x (by simp [hx])) _ h2

theorem foldl_from (P Q : List Char → Prop) :
    ∀ (pairs : List (List Char × List Char))
      (acc : List (List Char × List (List Char))),
      (∀ kv ∈ acc, P kv.1 ∧ ∀ w ∈ kv.2, Q w) →
      (∀ kv ∈ pairs, P kv.1 ∧ Q kv.2) →
      ∀ kv ∈ List.foldl (fun d kv => addPair d kv.1 kv.2) acc pairs,
        P kv.1 ∧ ∀ w ∈ kv.2, Q w := by
  intro pairs
  induction pairs with
  | nil => intro acc hacc _; exact hacc
  | cons kv rest ih =>
    intro acc hacc hps
    simp only [List.foldl_cons]
    exact ih (addPair acc kv.1 kv.2)
      (addPair_from P Q acc kv.1 kv.2 hacc (hps kv (by simp)).1 (hps kv (by simp)).2)
      (fun x hx => hps x (by simp [hx]))

theorem groupQs_from (P Q : List Char → Prop) (pairs : List (List Char × List Char))
    (hp : ∀ kv ∈ pairs, P kv.1 ∧ Q kv.2) :
    ∀ kv ∈ groupQs pairs, P kv.1 ∧ ∀ w ∈ kv.2, Q w :=
  foldl_from P Q pairs [] (by simp) hp

theorem charLe_iff {a b : Char} : a ≤ b ↔ a.toNat ≤ b.toNat :=
  ⟨fun h => h, fun h => h⟩

theorem isAsciiUpper_iff (c : Char) :
    isAsciiUpper c = true ↔ 65 ≤ c.toNat ∧ c.toNat ≤ 90 := by
  simp only [isAsciiUpper, Bool.and_eq_true, decide_eq_true_eq]
  rw [charLe_iff, charLe_iff]
  have e1 : ('A' : Char).toNat = 65 := by decide
  have e2 : ('Z' : Char).toNat = 90 := by decide
  rw [e1, e2]

theorem isAsciiLower_iff (c : Char) :
    isAsciiLower c = true ↔ 97 ≤ c.toNat ∧ c.toNat ≤ 122 := by
  simp only [isAsciiLower, Bool.and_eq_true, decide_eq_true_eq]
  rw [charLe_iff, charLe_iff]
  have e1 : ('a' : Char).toNat = 97 := by decide
  have e2 : ('z' : Char).toNat = 122 := by decide
  rw [e1, e2]

theorem lowerChar_toNat_of_upper (c : Char) (h : isAsciiUpper c = true) :
    (lowerChar c).toNat = c.toNat + 32 := by
  unfold lowerChar
  rw [if_pos h]
  have := (isAsciiUpper_iff c).mp h
  exact charOfNat_toNat (by omega)

theorem lowerChar_of_not_upper (c : Char) (h : isAsciiUpper c = false) :
    lowerChar c = c := by
  unfold lowerChar
  rw [if_neg (by simp [h])]

theorem lowerChar_alpha (c : Char) (h : isAsciiAlpha c = true) :
    isAsciiAlpha (lowerChar c) = true := by
  by_cases hu : isAsciiUpper c = true
  · have ht := lowerChar_toNat_of_upper c hu
    have hb := (isAsciiUpper_iff c).mp hu
    simp only [isAsciiAlpha, Bool.or_eq_true]
    exact Or.inr ((isAsciiLower_iff _).mpr (by omega))
  · rw [lowerChar_of_not_upper c (by simpa using hu)]
    exact h

theorem lowerChar_idem (c : Char) : lowerChar (lowerChar c) = lowerChar c := by
  by_cases hu : isAsciiUpper c = true
  · have ht := lowerChar_toNat_of_upper c hu
    have hb := (isAsciiUpper_iff c).mp hu
    apply lowerChar_of_not_upper
    by_cases h2 : isAsciiUpper (lowerChar c) = true
    · have := (isAsciiUpper_iff _).mp h2
      omega
    · simpa using h2
  · rw [lowerChar_of_not_upper c (by simpa using hu)]
    rw [lowerChar_of_not_upper c (by simpa using hu)]

theorem schemeChar_lowerChar (c : Char) (h : schemeChar c = true) :
    schemeChar (lowerChar c) = true := by
  by_cases hu : isAsciiUpper c = true
  · have halpha : isAsciiAlpha (lowerChar c) = true :=
      lowerChar_alpha c (by simp [isAsciiAlpha, hu])
    simp [schemeChar, halpha]
  · rw [lowerChar_of_not_upper c (by simpa using hu)]
    exact h

theorem schemeChar_avoid (c : Char) (h : schemeChar c = true) :
    c ≠ ':' ∧ c ≠ '/' ∧ c ≠ '?' ∧ c ≠ '#' ∧ unsafeUrlByte c = false := by
  have h5 : unsafeUrlByte c = false := by
    by_cases hu : unsafeUrlByte c = true
    · simp only [unsafeUrlByte, Bool.or_eq_true, decide_eq_true_eq] at hu
      rcases hu with (rfl | rfl) | rfl <;> exact absurd h (by decide)
    · simpa using hu
  refine ⟨?_, ?_, ?_, ?_, h5⟩ <;> (rintro rfl; exact absurd h (by decide))

theorem alpha_not_upperlower_decide (c : Char) (h : isAsciiAlpha c = true) :
    c ≠ ':' := by
  rintro rfl
  exact absurd h (by decide)

theorem cleanUrl_eq_self (s : List Char) (h : ∀ c ∈ s, unsafeUrlByte c = false) :
    cleanUrl s = s :=
  List.filter_eq_self.mpr (fun c hc => by simp [h c hc])

theorem mem_cleanUrl (s : List Char) (c : Char) (h : c ∈ cleanUrl s) :
    c ∈ s ∧ unsafeUrlByte c = false := by
  have := List.mem_filter.mp h
  exact ⟨this.1, by simpa using this.2⟩

theorem lowerStr_all_schemeChar (s : List Char) (h : s.all schemeChar = true) :
    (lowerStr s).all schemeChar = true := by
  simp only [List.all_eq_true] at h ⊢
  intro x hx
  rcases List.mem_map.mp hx with ⟨c, hc, rfl⟩
  exact schemeChar_lowerChar c (h c hc)

theorem lowerStr_idem (s : List Char) : lowerStr (lowerStr s) = lowerStr s := by
  simp only [lowerStr, List.map_map]
  exact List.map_congr_left (fun c _ => lowerChar_idem c)

/-- Case analysis of splitScheme: no scheme found, or a valid scheme prefix
split off and lowercased. -/
theorem splitScheme_cases (u : List Char) :
    splitScheme u = ([], u) ∨
      (∃ h0 t rest, u = (h0 :: t) ++ ':' :: rest ∧
        isAsciiAlpha h0 = true ∧ (h0 :: t).all schemeChar = true ∧
        splitScheme u = (lowerStr (h0 :: t), rest)) := by
  unfold splitScheme
  rcases hbr : breakAt (fun c => c = ':') u with ⟨before, after⟩
  have happ := breakAt_append_eq (fun c => c = ':') u
  rw [hbr] at happ
  simp only at happ
  have hhead := breakAt_snd_head (fun c => c = ':') u
  rw [hbr] at hhead
  simp only [decide_eq_true_eq] at hhead
  rcases after with _ | ⟨c0, rest⟩
  · left; rfl
  · rcases hhead with h0 | ⟨c1, t1, heq, hc1⟩
    · simp at h0
    · subst hc1
      injection heq with hceq hteq
      subst hceq
      rcases before with _ | ⟨h0, t⟩
      · left; rfl
      · by_cases hcond : (isAsciiAlpha h0 && (h0 :: t).all schemeChar) = true
        · right
          have hc2 := hcond
          simp only [Bool.and_eq_true] at hc2
          refine ⟨h0, t, rest, happ.symm, hc2.1, hc2.2, ?_⟩
          show (if (isAsciiAlpha h0 && (h0 :: t).all schemeChar) = true then
            (lowerStr (h0 :: t), rest) else ([], u)) = (lowerStr (h0 :: t), rest)
          rw [if_pos hcond]
        · left
          show (if (isAsciiAlpha h0 && (h0 :: t).all schemeChar) = true then
            (lowerStr (h0 :: t), rest) else ([], u)) = ([], u)
          rw [if_neg hcond]

/-- Facts about the scheme component splitScheme reports: it is empty, or
a lowercased run of scheme characters starting with an ASCII letter. -/
theorem splitScheme_fst_facts (u : List Char) :
    (splitScheme u).1 = [] ∨
      (∃ h0 t, (splitScheme u).1 = h0 :: t ∧ isAsciiAlpha h0 = true ∧
        (splitScheme u).1.all schemeChar = true ∧
        lowerStr (splitScheme u).1 = (splitScheme u).1) := by
  rcases splitScheme_cases u with hc | ⟨h0, t, rest, hu, ha, hall, hc⟩
  · left; rw [hc]
  · right
    rw [hc]
    simp only
    have hall2 : (lowerStr (h0 :: t)).all schemeChar = true :=
      lowerStr_all_schemeChar _ hall
    refine ⟨lowerChar h0, lowerStr t, rfl, ?_, hall2, lowerStr_idem (h0 :: t)⟩
    exact lowerChar_alpha h0 ha

theorem splitScheme_snd_subset (u : List Char) :
    ∀ x ∈ (splitScheme u).2, x ∈ u := by
  rcases splitScheme_cases u with hc | ⟨h0, t, rest, hu, ha, hall, hc⟩
  · rw [hc]; intro x hx; exact hx
  · rw [hc]
    intro x hx
    rw [hu]
    simp [hx]

/-- The scheme-splitting step when a valid scheme prefix is present. -/
theorem splitScheme_of_scheme (h0 : Char) (t rest : List Char)
    (ha : isAsciiAlpha h0 = true) (hall : (h0 :: t).all schemeChar = true)
    (hlow : lowerStr (h0 :: t) = h0 :: t) :
    splitScheme ((h0 :: t) ++ ':' :: rest) = (h0 :: t, rest) := by
  unfold splitScheme
  rw [breakAt_append_of _ _ _ _ (fun x hx => by
    simp only [List.all_eq_true] at hall
    simpa using (schemeChar_avoid x (hall x hx)).1) (by simp)]
  show (if (isAsciiAlpha h0 && (h0 :: t).all schemeChar) = true then
    (lowerStr (h0 :: t), rest) else ([], (h0 :: t) ++ ':' :: rest)) = (h0 :: t, rest)
  rw [if_pos (show (isAsciiAlpha h0 && (h0 :: t).all schemeChar) = true by
    simp [ha, hall]), hlow]

/-- The scheme-splitting step when the text starts with a non-letter. -/
theorem splitScheme_head_not_alpha (c0 : Char) (t : List Char)
    (h : isAsciiAlpha c0 = false) : splitScheme (c0 :: t) = ([], c0 :: t) := by
  rcases splitScheme_cases (c0 :: t) with hc | ⟨h0, t2, rest, hu, ha, hall, hc⟩
  · exact hc
  · simp only [List.cons_append] at hu
    injection hu with hh ht
    subst hh
    rw [ha] at h
    cases h

theorem breakAt_snd_nil (p : Char → Bool) (s : List Char)
    (h : (breakAt p s).2 = []) : ∀ x ∈ s, p x = false := by
  intro x hx
  have happ := breakAt_append_eq p s
  rw [h, List.append_nil] at happ
  exact breakAt_fst_not p s x (by rw [happ]; exact hx)

theorem splitFragmentF_no (s : List Char) (h : ∀ x ∈ s, x ≠ '#') :
    splitFragmentF s = (s, []) := by
  unfold splitFragmentF
  rw [breakAt_all_neg _ _ (fun x hx => by simpa using h x hx)]

theorem splitQueryF_no (s : List Char) (h : ∀ x ∈ s, x ≠ '?') :
    splitQueryF s = (s, []) := by
  unfold splitQueryF
  rw [breakAt_all_neg _ _ (fun x hx => by simpa using h x hx)]

theorem splitQueryF_append (a b : List Char) (ha : ∀ x ∈ a, x ≠ '?') :
    splitQueryF (a ++ '?' :: b) = (a, b) := by
  unfold splitQueryF
  rw [breakAt_append_of _ _ _ _ (fun x hx => by simpa using ha x hx) (by simp)]
  rfl

/-- The part before the fragment holds no hash sign and only input
characters. -/
theorem splitFragmentF_fst (s : List Char) :
    (∀ x ∈ (splitFragmentF s).1, x ≠ '#') ∧ (∀ x ∈ (splitFragmentF s).1, x ∈ s) := by
  unfold splitFragmentF
  rcases hbr : breakAt (fun c => c = '#') s with ⟨a, snd⟩
  have hhead := breakAt_snd_head (fun c => c = '#') s
  have hfst := breakAt_fst_not (fun c => c = '#') s
  have hsub := (breakAt_subset (fun c => c = '#') s).1
  rw [hbr] at hhead hfst hsub
  rcases snd with _ | ⟨c0, t0⟩
  · have hall := breakAt_snd_nil (fun c => c = '#') s (by rw [hbr])
    show (∀ x ∈ s, x ≠ '#') ∧ (∀ x ∈ s, x ∈ s)
    exact ⟨fun x hx => by simpa using hall x hx, fun x hx => hx⟩
  · rcases hhead with h0 | ⟨c1, t1, heq, hc1⟩
    · simp at h0
    · simp only [decide_eq_true_eq] at hc1
      subst hc1
      injection heq with hceq hteq
      subst hceq
      show (∀ x ∈ a, x ≠ '#') ∧ (∀ x ∈ a, x ∈ s)
      exact ⟨fun x hx => by simpa using hfst x hx, fun x hx => hsub x hx⟩

/-- The part before the query marker holds no question mark, and the query
is made of input characters. -/
theorem splitQueryF_fst (s : List Char) :
    (∀ x ∈ (splitQueryF s).1, x ≠ '?') ∧ (∀ x ∈ (splitQueryF s).1, x ∈ s) ∧
      (∀ x ∈ (splitQueryF s).2, x ∈ s) := by
  unfold splitQueryF
  rcases hbr : breakAt (fun c => c = '?') s with ⟨a, snd⟩
  have hhead := breakAt_snd_head (fun c => c = '?') s
  have hfst := breakAt_fst_not (fun c => c = '?') s
  have hsub := (breakAt_subset (fun c => c = '?') s).1
  have hsub2 := (breakAt_subset (fun c => c = '?') s).2
  rw [hbr] at hhead hfst hsub hsub2
  rcases snd with _ | ⟨c0, t0⟩
  · have hall := breakAt_snd_nil (fun c => c = '?') s (by rw [hbr])
    show (∀ x ∈ s, x ≠ '?') ∧ (∀ x ∈ s, x ∈ s) ∧ (∀ x ∈ ([] : List Char), x ∈ s)
    exact ⟨fun x hx => by simpa using hall x hx, fun x hx => hx, by simp⟩
  · rcases hhead with h0 | ⟨c1, t1, heq, hc1⟩
    · simp at h0
    · simp only [decide_eq_true_eq] at hc1
      subst hc1
      injection heq with hceq hteq
      subst hceq
      show (∀ x ∈ a, x ≠ '?') ∧ (∀ x ∈ a, x ∈ s) ∧ (∀ x ∈ t0, x ∈ s)
      exact ⟨fun x hx => by simpa using hfst x hx, fun x hx => hsub x hx,
        fun x hx => hsub2 x (by simp [hx])⟩

theorem dropWhile_nil_imp (p : α → Bool) (l : List α)
    (h : List.dropWhile p l = []) : ∀ x ∈ l, p x = true := by
  induction l with
  | nil => simp
  | cons a t ih =>
    rw [List.dropWhile_cons] at h
    split at h
    · rename_i ha
      intro x hx
      rcases List.mem_cons.mp hx with rfl | hx2
      · exact ha
      · exact ih h x hx2
    · cases h

theorem dropWhile_head_not (p : α → Bool) (l : List α) (h0 : α) (t : List α)
    (h : List.dropWhile p l = h0 :: t) : p h0 = false := by
  induction l with
  | nil => cases h
  | cons a t2 ih =>
    rw [List.dropWhile_cons] at h
    split at h
    · exact ih h
    · rename_i ha
      injection h with h1 _
      subst h1
      simpa using ha

theorem takeWhile_append_all (p : α → Bool) (a : List α) (c : α) (b : List α)
    (ha : ∀ x ∈ a, p x = true) (hc : p c = false) :
    List.takeWhile p (a ++ c :: b) = a := by
  induction a with
  | nil => simp [List.takeWhile_cons, hc]
  | cons x t ih =>
    have hx : p x = true := ha x (by simp)
    have ih2 := ih (fun y hy => ha y (by simp [hy]))
    simp [List.takeWhile_cons, hx, ih2]

theorem dropWhile_append_all (p : α → Bool) (a : List α) (c : α) (b : List α)
    (ha : ∀ x ∈ a, p x = true) (hc : p c = false) :
    List.dropWhile p (a ++ c :: b) = c :: b := by
  induction a with
  | nil => simp [List.dropWhile_cons, hc]
  | cons x t ih =>
    have hx : p x = true := ha x (by simp)
    have ih2 := ih (fun y hy => ha y (by simp [hy]))
    simp [List.dropWhile_cons, hx, ih2]

/-- take of the length of the first part recovers it. -/
theorem take_sub_len {α : Type} (D T : List α) :
    (D ++ T).take ((D ++ T).length - T.length) = D := by
  rw [show (D ++ T).length - T.length = D.length by simp]
  exact List.take_left D T

/-- The prefix helper is the reverse of dropWhile on the reverse. -/
theorem upToLastSlash_eq (s : List Char) :
    upToLastSlash s = (s.reverse.dropWhile (fun c => c ≠ '/')).reverse := by
  obtain ⟨R, hR⟩ : ∃ R, R = s.reverse := ⟨s.reverse, rfl⟩
  have hs : s = R.reverse := by rw [hR, List.reverse_reverse]
  subst hs
  unfold upToLastSlash afterLastSlash
  simp only [List.reverse_reverse]
  have htd := List.takeWhile_append_dropWhile
    (p := fun c => decide (c ≠ '/')) (l := R)
  have hsplit : R.reverse = (R.dropWhile (fun c => c ≠ '/')).reverse ++
      (R.takeWhile (fun c => c ≠ '/')).reverse := by
    rw [← List.reverse_append, htd]
  rw [hsplit, take_sub_len]

/-- The two last-segment helpers decompose the path. -/
theorem upToLast_split (s : List Char) :
    upToLastSlash s ++ afterLastSlash s = s := by
  rw [upToLastSlash_eq]
  unfold afterLastSlash
  rw [← List.reverse_append, List.takeWhile_append_dropWhile, List.reverse_reverse]

theorem afterLastSlash_no_slash (s : List Char) :
    ∀ x ∈ afterLastSlash s, x ≠ '/' := by
  intro x hx
  unfold afterLastSlash at hx
  rw [List.mem_reverse] at hx
  have := List.mem_takeWhile_imp hx
  simpa using this

theorem afterLastSlash_subset (s : List Char) :
    ∀ x ∈ afterLastSlash s, x ∈ s := by
  intro x hx
  unfold afterLastSlash at hx
  rw [List.mem_reverse] at hx
  have := (List.takeWhile_sublist (l := s.reverse) _).subset hx
  simpa using this

theorem upToLastSlash_subset (s : List Char) :
    ∀ x ∈ upToLastSlash s, x ∈ s := by
  intro x hx
  exact List.take_subset _ s hx

/-- With a slash present, the prefix part ends in a slash. -/
theorem upToLastSlash_ends_slash (s : List Char) (h : hasChar s '/' = true) :
    ∃ u, upToLastSlash s = u ++ [ '/' ] := by
  rw [upToLastSlash_eq]
  rcases hdw : s.reverse.dropWhile (fun c => c ≠ '/') with _ | ⟨h0, t⟩
  · exfalso
    have hall := dropWhile_nil_imp _ _ hdw
    have hmem : '/' ∈ s.reverse := List.mem_reverse.mpr ((hasChar_iff_mem s '/').mp h)
    have := hall '/' hmem
    simp at this
  · have hh0 := dropWhile_head_not _ _ _ _ hdw
    simp only [decide_eq_false_iff_not, not_not] at hh0
    subst hh0
    exact ⟨t.reverse, by simp⟩

theorem afterLastSlash_append (x : List Char) (y : List Char)
    (hy : ∀ c ∈ y, c ≠ '/') :
    afterLastSlash (x ++ '/' :: y) = y := by
  unfold afterLastSlash
  rw [List.reverse_append]
  simp only [List.reverse_cons]
  rw [show y.reverse ++ [ '/' ] ++ x.reverse = y.reverse ++ '/' :: x.reverse by simp]
  rw [takeWhile_append_all _ _ _ _
    (fun c hc => by simpa using hy c (List.mem_reverse.mp hc)) (by simp)]
  simp

theorem upToLastSlash_append (x : List Char) (y : List Char)
    (hy : ∀ c ∈ y, c ≠ '/') :
    upToLastSlash (x ++ '/' :: y) = x ++ [ '/' ] := by
  rw [upToLastSlash_eq]
  rw [List.reverse_append]
  simp only [List.reverse_cons]
  rw [show y.reverse ++ [ '/' ] ++ x.reverse = y.reverse ++ '/' :: x.reverse by simp]
  rw [dropWhile_append_all _ _ _ _
    (fun c hc => by simpa using hy c (List.mem_reverse.mp hc)) (by simp)]
  simp

theorem takeOne_append (l m : List α) (h : l ≠ []) :
    (l ++ m).take 1 = l.take 1 := by
  cases l with
  | nil => exact absurd rfl h
  | cons x t => simp

/-- Case analysis of _splitparams under the caller of urlparse. -/
theorem splitparams_cases (p0 : List Char) :
    splitparams p0 = (p0, []) ∨
      (∃ a b, hasChar p0 '/' = true ∧ afterLastSlash p0 = a ++ ';' :: b ∧
        (∀ x ∈ a, x ≠ ';') ∧ splitparams p0 = (upToLastSlash p0 ++ a, b)) ∨
      (∃ a b, hasChar p0 '/' = false ∧ p0 = a ++ ';' :: b ∧
        (∀ x ∈ a, x ≠ ';') ∧ splitparams p0 = (a, b)) := by
  unfold splitparams
  by_cases hslash : hasChar p0 '/' = true
  · rw [if_pos hslash]
    rcases hbr : breakAt (fun c => c = ';') (afterLastSlash p0) with ⟨a, snd⟩
    have hhead := breakAt_snd_head (fun c => c = ';') (afterLastSlash p0)
    have hfst := breakAt_fst_not (fun c => c = ';') (afterLastSlash p0)
    have happ := breakAt_append_eq (fun c => c = ';') (afterLastSlash p0)
    rw [hbr] at hhead hfst happ
    rcases snd with _ | ⟨c0, t0⟩
    · left; rfl
    · rcases hhead with h0 | ⟨c1, t1, heq, hc1⟩
      · simp at h0
      · simp only [decide_eq_true_eq] at hc1
        subst hc1
        injection heq with hceq hteq
        subst hceq
        right; left
        exact ⟨a, t0, hslash, happ.symm,
          fun x hx => by simpa using hfst x hx, rfl⟩
  · rw [if_neg hslash]
    rcases hbr : breakAt (fun c => c = ';') p0 with ⟨a, snd⟩
    have hhead := breakAt_snd_head (fun c => c = ';') p0
    have hfst := breakAt_fst_not (fun c => c = ';') p0
    have happ := breakAt_append_eq (fun c => c = ';') p0
    rw [hbr] at hhead hfst happ
    rcases snd with _ | ⟨c0, t0⟩
    · left; rfl
    · rcases hhead with h0 | ⟨c1, t1, heq, hc1⟩
      · simp at h0
      · simp only [decide_eq_true_eq] at hc1
        subst hc1
        injection heq with hceq hteq
        subst hceq
        right; right
        exact ⟨a, t0, by simpa using hslash, happ.symm,
          fun x hx => by simpa using hfst x hx, rfl⟩

theorem splitparams_subset (p0 : List Char) :
    (∀ x ∈ (splitparams p0).1, x ∈ p0) ∧ (∀ x ∈ (splitparams p0).2, x ∈ p0) := by
  rcases splitparams_cases p0 with hsp | ⟨a, b, hslash, hafter, hano, hsp⟩ |
    ⟨a, b, hnos, hp0, hano, hsp⟩
  · rw [hsp]
    exact ⟨fun x hx => hx, by simp⟩
  · rw [hsp]
    have hasub := afterLastSlash_subset p0
    rw [hafter] at hasub
    constructor
    · intro x hx
      rcases List.mem_append.mp hx with hx1 | hx2
      · exact upToLastSlash_subset p0 x hx1
      · exact hasub x (by simp [hx2])
    · intro x hx
      exact hasub x (by simp [hx])
  · constructor
    · intro x hx
      rw [hsp] at hx
      rw [hp0]
      simp only [List.mem_append, List.mem_cons]
      exact Or.inl hx
    · intro x hx
      rw [hsp] at hx
      rw [hp0]
      simp only [List.mem_append, List.mem_cons]
      exact Or.inr (Or.inr hx)

theorem paramsSplit_subset (s p0 : List Char) :
    (∀ x ∈ (paramsSplit s p0).1, x ∈ p0) ∧
      (∀ x ∈ (paramsSplit s p0).2, x ∈ p0) := by
  unfold paramsSplit
  split
  · exact splitparams_subset p0
  · exact ⟨fun x hx => hx, by simp⟩

/-- Shape of the split path: with the urlsplit invariant (empty or
slash-headed) the path part keeps it, and an empty path has no params. -/
theorem paramsSplit_shape (s p0 : List Char)
    (hh : p0 = [] ∨ p0.take 1 = [ '/' ]) :
    ((paramsSplit s p0).1 = [] ∨ (paramsSplit s p0).1.take 1 = [ '/' ]) ∧
      ((paramsSplit s p0).1 = [] → (paramsSplit s p0).2 = []) := by
  unfold paramsSplit
  split
  · rename_i hcond
    rcases splitparams_cases p0 with hsp | ⟨a, b, hslash, hafter, hano, hsp⟩ |
      ⟨a, b, hnos, hp0, hano, hsp⟩
    · rw [hsp]
      exact ⟨hh, fun _ => rfl⟩
    · rw [hsp]
      obtain ⟨u, hu⟩ := upToLastSlash_ends_slash p0 hslash
      have hupne : upToLastSlash p0 ≠ [] := by
        rw [hu]; simp
      have h1 : (upToLastSlash p0 ++ a).take 1 = p0.take 1 := by
        rw [takeOne_append _ _ hupne]
        conv_rhs => rw [← upToLast_split p0]
        rw [takeOne_append _ _ hupne]
      rcases hh with rfl | hh2
      · exfalso
        have : hasChar ([] : List Char) ';' = false := by decide
        rw [this] at hcond
        simp at hcond
      · refine ⟨Or.inr (by rw [h1, hh2]), ?_⟩
        intro hnil
        exact absurd hnil (by simp [hupne])
    · exfalso
      rcases hh with rfl | hh2
      · have : hasChar ([] : List Char) ';' = false := by decide
        rw [this] at hcond
        simp at hcond
      · rcases hp1 : p0 with _ | ⟨c0, t0⟩
        · rw [hp1] at hh2; simp at hh2
        · rw [hp1] at hh2
          simp only [List.take_succ_cons, List.take_zero] at hh2
          injection hh2 with hc0 _
          subst hc0
          rw [hp1] at hnos
          rw [hasChar_eq_false_iff] at hnos
          exact hnos (by simp)
  · exact ⟨hh, fun _ => rfl⟩

/-- Splitting the reassembled path-semicolon-params gives the same split:
the params step of the second parse agrees with the first. -/
theorem paramsSplit_stable (s p0 : List Char) :
    paramsSplit s
      (if (paramsSplit s p0).2 = [] then (paramsSplit s p0).1
       else (paramsSplit s p0).1 ++ ';' :: (paramsSplit s p0).2) =
      paramsSplit s p0 := by
  by_cases hcond : s ∈ usesParams ∧ hasChar p0 ';' = true
  · have hps : paramsSplit s p0 = splitparams p0 := by
      unfold paramsSplit; rw [if_pos hcond]
    rcases splitparams_cases p0 with hsp | ⟨a, b, hslash, hafter, hano, hsp⟩ |
      ⟨a, b, hnos, hp0, hano, hsp⟩
    · rw [hps, hsp]
      show paramsSplit s p0 = (p0, [])
      rw [hps, hsp]
    · rcases b with _ | ⟨b0, bt⟩
      · -- the trailing semicolon is dropped: resplit the shorter path
        rw [hps, hsp]
        show paramsSplit s (upToLastSlash p0 ++ a) = (upToLastSlash p0 ++ a, [])
        obtain ⟨u, hu⟩ := upToLastSlash_ends_slash p0 hslash
        have hano2 : ∀ x ∈ a, x ≠ '/' := by
          have hss := afterLastSlash_no_slash p0
          rw [hafter] at hss
          intro x hx
          exact hss x (by simp [hx])
        by_cases hc2 : s ∈ usesParams ∧ hasChar (upToLastSlash p0 ++ a) ';' = true
        · unfold paramsSplit
          rw [if_pos hc2]
          unfold splitparams
          rw [if_pos (show hasChar (upToLastSlash p0 ++ a) '/' = true from by
            rw [hasChar_iff_mem, hu]
            simp)]
          rw [hu, show (u ++ [ '/' ]) ++ a = u ++ '/' :: a by simp]
          rw [afterLastSlash_append u a hano2]
          rw [breakAt_all_neg _ _ (fun x hx => by simpa using hano x hx)]
        · unfold paramsSplit
          rw [if_neg hc2]
      · -- params nonempty: the reassembled string is the original path
        have hre : (upToLastSlash p0 ++ a) ++ ';' :: (b0 :: bt) = p0 := by
          conv_rhs => rw [← upToLast_split p0]
          rw [hafter]
          simp
        rw [hps, hsp]
        show paramsSplit s ((upToLastSlash p0 ++ a) ++ ';' :: (b0 :: bt)) =
          (upToLastSlash p0 ++ a, b0 :: bt)
        rw [hre, hps, hsp]
    · rcases b with _ | ⟨b0, bt⟩
      · rw [hps, hsp]
        show paramsSplit s a = (a, [])
        unfold paramsSplit
        rw [if_neg (by
          intro hc2
          rw [hasChar_iff_mem] at hc2
          exact absurd hc2.2 (by
            intro hmem
            exact hano ';' hmem rfl))]
      · have hre : a ++ ';' :: (b0 :: bt) = p0 := hp0.symm
        rw [hps, hsp]
        show paramsSplit s (a ++ ';' :: (b0 :: bt)) = (a, b0 :: bt)
        rw [hre, hps, hsp]
  · have hps : paramsSplit s p0 = (p0, []) := by
      unfold paramsSplit; rw [if_neg hcond]
    rw [hps]
    show paramsSplit s p0 = (p0, [])
    rw [hps]

theorem splitFragmentF_fst_cons (c : Char) (t : List Char) (h : c ≠ '#') :
    ∃ y, (splitFragmentF (c :: t)).1 = c :: y := by
  unfold splitFragmentF
  rw [breakAt_cons_neg (fun x => x = '#') c t (by simp [h])]
  split
  · rename_i a b heq
    injection heq with h1 h2
    exact ⟨(breakAt (fun x => x = '#') t).1, h1.symm⟩
  · exact ⟨t, rfl⟩

theorem splitQueryF_fst_cons (c : Char) (t : List Char) (h : c ≠ '?') :
    ∃ y, (splitQueryF (c :: t)).1 = c :: y := by
  unfold splitQueryF
  rw [breakAt_cons_neg (fun x => x = '?') c t (by simp [h])]
  split
  · rename_i a b heq
    injection heq with h1 h2
    exact ⟨(breakAt (fun x => x = '?') t).1, h1.symm⟩
  · exact ⟨t, rfl⟩

theorem splitFragmentF_cons_hash (t : List Char) : splitFragmentF ('#' :: t) = ([], t) := by
  unfold splitFragmentF
  rw [breakAt_cons_pos (fun x => x = '#') '#' t (by simp)]
  rfl

theorem splitQueryF_cons_qm (t : List Char) : splitQueryF ('?' :: t) = ([], t) := by
  unfold splitQueryF
  rw [breakAt_cons_pos (fun x => x = '?') '?' t (by simp)]
  rfl

theorem mem_joinAmp (chunks : List (List Char)) (x : Char) (hx : x ∈ joinAmp chunks) :
    x = '&' ∨ ∃ ch ∈ chunks, x ∈ ch := by
  induction chunks with
  | nil => simp [joinAmp] at hx
  | cons ch rest ih =>
    cases rest with
    | nil => exact Or.inr ⟨ch, by simp, hx⟩
    | cons ch2 rest2 =>
      have hstep : joinAmp (ch :: ch2 :: rest2) = ch ++ '&' :: joinAmp (ch2 :: rest2) := rfl
      rw [hstep] at hx
      rcases List.mem_append.mp hx with hx1 | hx1
      · exact Or.inr ⟨ch, by simp, hx1⟩
      · rcases List.mem_cons.mp hx1 with rfl | hx2
        · exact Or.inl rfl
        · rcases ih hx2 with rfl | ⟨ch3, hch3, hx3⟩
          · exact Or.inl rfl
          · exact Or.inr ⟨ch3, by simp [hch3], hx3⟩

/-- Characters of the urlencode output avoid the hash, question mark and
unsafe bytes, so the re-serialized query survives a reparse unchanged. -/
theorem urlencodeGrouped_avoid (d : List (List Char × List (List Char))) (x : Char)
    (hx : x ∈ urlencodeGrouped d) :
    x ≠ '#' ∧ x ≠ '?' ∧ unsafeUrlByte x = false := by
  unfold urlencodeGrouped at hx
  rcases mem_joinAmp _ x hx with rfl | ⟨ch, hch, hxch⟩
  · exact ⟨by decide, by decide, by decide⟩
  · rcases List.mem_map.mp hch with ⟨kv, -, rfl⟩
    rcases List.mem_append.mp hxch with hx1 | hx1
    · have h := quotePlus_avoid _ x hx1
      exact ⟨h.2.2.1, h.2.2.2.1, h.2.2.2.2⟩
    · rcases List.mem_cons.mp hx1 with rfl | hx2
      · exact ⟨by decide, by decide, by decide⟩
      · have h := quotePlus_avoid _ x hx2
        exact ⟨h.2.2.1, h.2.2.2.1, h.2.2.2.2⟩

/-- Evaluation of urlsplit when the remainder after the scheme starts with
the double slash and the netloc brackets are balanced. -/
theorem urlsplitE_netloc_form (u0 sch rest : List Char)
    (hs : splitScheme (cleanUrl u0) = (sch, '/' :: '/' :: rest))
    (hbb : badBrackets (breakAt netlocDelim rest).1 = false) :
    urlsplitE u0 = some ⟨sch, (breakAt netlocDelim rest).1,
      (splitQueryF (splitFragmentF (breakAt netlocDelim rest).2).1).1, [],
      (splitQueryF (splitFragmentF (breakAt netlocDelim rest).2).1).2,
      (splitFragmentF (breakAt netlocDelim rest).2).2⟩ := by
  simp only [urlsplitE]
  rw [hs]
  simp only [hbb, Bool.false_eq_true, if_false]

/-- First-parse facts about the components urlsplit reports: the scheme is
empty or a lowercased scheme-character run, the netloc is delimiter-free
with balanced brackets, path and query avoid their own delimiters and the
unsafe bytes, the query is made of input characters, the path of a URL with
a netloc is empty or slash-headed, and params is empty. -/
theorem urlsplitE_facts (u : List Char) (c : Components) (h : urlsplitE u = some c) :
    (c.scheme = [] ∨ ∃ h0 t, c.scheme = h0 :: t ∧ isAsciiAlpha h0 = true ∧
      c.scheme.all schemeChar = true ∧ lowerStr c.scheme = c.scheme) ∧
    (∀ x ∈ c.netloc, netlocDelim x = false) ∧
    badBrackets c.netloc = false ∧
    (∀ x ∈ c.netloc, unsafeUrlByte x = false) ∧
    (∀ x ∈ c.path, x ≠ '?' ∧ x ≠ '#' ∧ unsafeUrlByte x = false) ∧
    (∀ x ∈ c.query, x ≠ '#' ∧ unsafeUrlByte x = false) ∧
    (∀ x ∈ c.query, x ∈ u) ∧
    (c.netloc ≠ [] → c.path = [] ∨ c.path.take 1 = [ '/' ]) ∧
    c.params = [] := by
  simp only [urlsplitE] at h
  split at h
  · rename_i rest heq
    split at h
    · cases h
    · rename_i hbb
      injection h with h2
      subst h2
      have hbb2 : badBrackets (breakAt netlocDelim rest).1 = false := by
        simpa using hbb
      have hrest_sub : ∀ x ∈ rest, x ∈ cleanUrl u := by
        intro x hx
        exact splitScheme_snd_subset (cleanUrl u) x (by rw [heq]; simp [hx])
      have hnr2_sub : ∀ x ∈ (breakAt netlocDelim rest).2, x ∈ cleanUrl u :=
        fun x hx => hrest_sub x ((breakAt_subset netlocDelim rest).2 x hx)
      have hfr1 := splitFragmentF_fst (breakAt netlocDelim rest).2
      have hqr1 := splitQueryF_fst (splitFragmentF (breakAt netlocDelim rest).2).1
      refine ⟨splitScheme_fst_facts (cleanUrl u), ?_, hbb2, ?_, ?_, ?_, ?_, ?_, rfl⟩
      · exact breakAt_fst_not netlocDelim rest
      · intro x hx
        exact (mem_cleanUrl u x
          (hrest_sub x ((breakAt_subset netlocDelim rest).1 x hx))).2
      · intro x hx
        refine ⟨hqr1.1 x hx, ?_, ?_⟩
        · exact hfr1.1 x (hqr1.2.1 x hx)
        · exact (mem_cleanUrl u x (hnr2_sub x (hfr1.2 x (hqr1.2.1 x hx)))).2
      · intro x hx
        refine ⟨?_, ?_⟩
        · exact hfr1.1 x (hqr1.2.2 x hx)
        · exact (mem_cleanUrl u x (hnr2_sub x (hfr1.2 x (hqr1.2.2 x hx)))).2
      · intro x hx
        exact (mem_cleanUrl u x (hnr2_sub x (hfr1.2 x (hqr1.2.2 x hx)))).1
      · intro hne
        rcases hnr2 : (breakAt netlocDelim rest).2 with _ | ⟨d, t2⟩
        · left
          rfl
        · have hhead := breakAt_snd_head netlocDelim rest
          rw [hnr2] at hhead
          rcases hhead with h0 | ⟨c1, t1, heq2, hc1⟩
          · cases h0
          · injection heq2 with hde hte
            rw [← hde] at hc1
            have hd : d = '/' ∨ d = '?' ∨ d = '#' := by
              simp only [netlocDelim, Bool.or_eq_true, decide_eq_true_eq] at hc1
              tauto
            rcases hd with rfl | rfl | rfl
            · show (splitQueryF (splitFragmentF ('/' :: t2)).1).1 = [] ∨
                ((splitQueryF (splitFragmentF ('/' :: t2)).1).1).take 1 = [ '/' ]
              obtain ⟨y, hy⟩ := splitFragmentF_fst_cons '/' t2 (by decide)
              rw [hy]
              obtain ⟨z, hz⟩ := splitQueryF_fst_cons '/' y (by decide)
              rw [hz]
              right
              rfl
            · show (splitQueryF (splitFragmentF ('?' :: t2)).1).1 = [] ∨
                ((splitQueryF (splitFragmentF ('?' :: t2)).1).1).take 1 = [ '/' ]
              obtain ⟨y, hy⟩ := splitFragmentF_fst_cons '?' t2 (by decide)
              rw [hy, splitQueryF_cons_qm y]
              left
              rfl
            · show (splitQueryF (splitFragmentF ('#' :: t2)).1).1 = [] ∨
                ((splitQueryF (splitFragmentF ('#' :: t2)).1).1).take 1 = [ '/' ]
              rw [splitFragmentF_cons_hash t2]
              left
              rfl
  · injection h with h2
    subst h2
    have hother_sub : ∀ x ∈ (splitScheme (cleanUrl u)).2, x ∈ cleanUrl u :=
      splitScheme_snd_subset (cleanUrl u)
    have hfr1 := splitFragmentF_fst (splitScheme (cleanUrl u)).2
    have hqr1 := splitQueryF_fst (splitFragmentF (splitScheme (cleanUrl u)).2).1
    refine ⟨splitScheme_fst_facts (cleanUrl u), by simp, rfl, by simp,
      ?_, ?_, ?_, ?_, rfl⟩
    · intro x hx
      refine ⟨hqr1.1 x hx, ?_, ?_⟩
      · exact hfr1.1 x (hqr1.2.1 x hx)
      · exact (mem_cleanUrl u x (hother_sub x (hfr1.2 x (hqr1.2.1 x hx)))).2
    · intro x hx
      refine ⟨?_, ?_⟩
      · exact hfr1.1 x (hqr1.2.2 x hx)
      · exact (mem_cleanUrl u x (hother_sub x (hfr1.2 x (hqr1.2.2 x hx)))).2
    · intro x hx
      exact (mem_cleanUrl u x (hother_sub x (hfr1.2 x (hqr1.2.2 x hx)))).1
    · intro hne
      exact absurd rfl hne

/-- Reattaching params to the path before unsplitting equals unsplitting
with the combined path directly. -/
theorem urlunparse_pfull (sch nl path params q f : List Char) :
    urlunparse ⟨sch, nl, path, params, q, f⟩ =
      urlunparse ⟨sch, nl,
        (if params = [] then path else path ++ ';' :: params), [], q, f⟩ := by
  by_cases hp : params = []
  · subst hp
    rfl
  · simp only [urlunparse, if_neg hp, if_pos rfl]
    rfl

/-- urlsplit recovers the components urlunparse serialized, for components
with the shapes a first parse produces and an empty params and fragment. -/
theorem urlsplitE_urlunparse (sch nl pfull q : List Char)
    (hsch : sch = [] ∨ ∃ h0 t, sch = h0 :: t ∧ isAsciiAlpha h0 = true ∧
      sch.all schemeChar = true ∧ lowerStr sch = sch)
    (hnl : ∀ x ∈ nl, netlocDelim x = false)
    (hnlb : badBrackets nl = false)
    (hnlu : ∀ x ∈ nl, unsafeUrlByte x = false)
    (hnlne : nl ≠ [])
    (hp : ∀ x ∈ pfull, x ≠ '?' ∧ x ≠ '#' ∧ unsafeUrlByte x = false)
    (hpshape : pfull = [] ∨ pfull.take 1 = [ '/' ])
    (hq : ∀ x ∈ q, x ≠ '#' ∧ unsafeUrlByte x = false) :
    urlsplitE (urlunparse ⟨sch, nl, pfull, [], q, []⟩) =
      some ⟨sch, nl, pfull, [], q, []⟩ := by
  have hns : ¬(pfull ≠ [] ∧ pfull.take 1 ≠ [ '/' ]) := by
    rcases hpshape with rfl | hh
    · simp
    · intro hcon; exact hcon.2 hh
  have hv : urlunparse ⟨sch, nl, pfull, [], q, []⟩ =
      (if sch = [] then [] else sch ++ [ ':' ]) ++
        '/' :: '/' :: (nl ++ (pfull ++ (if q = [] then [] else '?' :: q))) := by
    by_cases hsch0 : sch = [] <;> by_cases hq0 : q = [] <;>
      simp [urlunparse, hnlne, hns, hsch0, hq0]
  have hvsafe : ∀ x ∈ urlunparse ⟨sch, nl, pfull, [], q, []⟩,
      unsafeUrlByte x = false := by
    intro x hx
    rw [hv] at hx
    rcases List.mem_append.mp hx with hx1 | hx1
    · split at hx1
      · simp at hx1
      · rename_i hsne
        rcases List.mem_append.mp hx1 with hx2 | hx2
        · rcases hsch with rfl | ⟨h0, t, hseq, ha, hall, hlow⟩
          · exact absurd rfl hsne
          · have hsc := List.all_eq_true.mp hall x hx2
            exact (schemeChar_avoid x hsc).2.2.2.2
        · rcases List.mem_singleton.mp hx2 with rfl
          decide
    · rcases List.mem_cons.mp hx1 with rfl | hx1
      · decide
      · rcases List.mem_cons.mp hx1 with rfl | hx1
        · decide
        · rcases List.mem_append.mp hx1 with hx2 | hx2
          · exact hnlu x hx2
          · rcases List.mem_append.mp hx2 with hx3 | hx3
            · exact (hp x hx3).2.2
            · split at hx3
              · simp at hx3
              · rcases List.mem_cons.mp hx3 with rfl | hx4
                · decide
                · exact (hq x hx4).2
  have hclean : cleanUrl (urlunparse ⟨sch, nl, pfull, [], q, []⟩) =
      urlunparse ⟨sch, nl, pfull, [], q, []⟩ :=
    cleanUrl_eq_self _ hvsafe
  have hss : splitScheme (urlunparse ⟨sch, nl, pfull, [], q, []⟩) =
      (sch, '/' :: '/' :: (nl ++ (pfull ++ (if q = [] then [] else '?' :: q)))) := by
    rw [hv]
    rcases hsch with rfl | ⟨h0, t, hseq, ha, hall, hlow⟩
    · rw [if_pos rfl]
      simp only [List.nil_append]
      exact splitScheme_head_not_alpha '/' _ (by decide)
    · rw [if_neg (by rw [hseq]; simp)]
      subst hseq
      have hassoc : ((h0 :: t) ++ [ ':' ]) ++
          ('/' :: '/' :: (nl ++ (pfull ++ (if q = [] then [] else '?' :: q)))) =
          (h0 :: t) ++ ':' ::
            ('/' :: '/' :: (nl ++ (pfull ++ (if q = [] then [] else '?' :: q)))) := by
        simp
      rw [hassoc]
      exact splitScheme_of_scheme h0 t _ ha hall hlow
  have hbreak : breakAt netlocDelim
      (nl ++ (pfull ++ (if q = [] then [] else '?' :: q))) =
      (nl, pfull ++ (if q = [] then [] else '?' :: q)) := by
    rcases hpshape with rfl | hh
    · by_cases hq0 : q = []
      · rw [if_pos hq0]
        simp only [List.nil_append, List.append_nil]
        exact breakAt_all_neg netlocDelim nl hnl
      · rw [if_neg hq0]
        simp only [List.nil_append]
        exact breakAt_append_of netlocDelim nl '?' q hnl (by decide)
    · cases pfull with
      | nil => simp at hh
      | cons p0c pt =>
        simp only [List.take_succ_cons, List.take_zero] at hh
        injection hh with hc0 _
        subst hc0
        exact breakAt_append_of netlocDelim nl '/'
          (pt ++ (if q = [] then [] else '?' :: q)) hnl (by decide)
  have hfr : splitFragmentF (pfull ++ (if q = [] then [] else '?' :: q)) =
      (pfull ++ (if q = [] then [] else '?' :: q), []) := by
    apply splitFragmentF_no
    intro x hx
    rcases List.mem_append.mp hx with hx1 | hx1
    · exact (hp x hx1).2.1
    · split at hx1
      · simp at hx1
      · rcases List.mem_cons.mp hx1 with rfl | hx2
        · decide
        · exact (hq x hx2).1
  have hqr : splitQueryF (pfull ++ (if q = [] then [] else '?' :: q)) = (pfull, q) := by
    by_cases hq0 : q = []
    · subst hq0
      rw [if_pos rfl, List.append_nil]
      exact splitQueryF_no pfull (fun x hx => (hp x hx).1)
    · rw [if_neg hq0]
      exact splitQueryF_append pfull q (fun x hx => (hp x hx).1)
  have hs2 : splitScheme (cleanUrl (urlunparse ⟨sch, nl, pfull, [], q, []⟩)) =
      (sch, '/' :: '/' :: (nl ++ (pfull ++ (if q = [] then [] else '?' :: q)))) := by
    rw [hclean]
    exact hss
  rw [urlsplitE_netloc_form _ sch _ hs2 (by rw [hbreak]; exact hnlb)]
  simp only [hbreak, hfr, hqr]

theorem mem_ungroup (d : List (List Char × List (List Char)))
    (kv : List Char × List Char) :
    kv ∈ ungroup d ↔ ∃ vs, (kv.1, vs) ∈ d ∧ kv.2 ∈ vs := by
  induction d with
  | nil => simp [ungroup]
  | cons kv0 rest ih =>
    rcases kv0 with ⟨k0, vs0⟩
    simp only [ungroup, concatMap_cons, List.mem_append, List.mem_map]
    rw [← ungroup, ih]
    constructor
    · rintro (⟨v, hv, rfl⟩ | ⟨vs, hvs, hv⟩)
      · exact ⟨vs0, by simp, hv⟩
      · exact ⟨vs, by simp [hvs], hv⟩
    · rintro ⟨vs, hvs, hv⟩
      rcases List.mem_cons.mp hvs with heq | h2
      · injection heq with h1 h2
        subst h1; subst h2
        exact Or.inl ⟨kv.2, hv, by simp⟩
      · exact Or.inr ⟨vs, h2, hv⟩

end Urllib

namespace Normalizer

open PyStr Urllib

theorem removeTracking_idem (d : List (List Char × List (List Char))) :
    removeTracking (removeTracking d) = removeTracking d := by
  simp [removeTracking, List.filter_filter]

theorem removeTracking_sublist (d : List (List Char × List (List Char))) :
    (removeTracking d).Sublist d := List.filter_sublist d

theorem removeTracking_nodup (d : List (List Char × List (List Char)))
    (hnd : (d.map Prod.fst).Nodup) : ((removeTracking d).map Prod.fst).Nodup :=
  List.Nodup.sublist (List.Sublist.map Prod.fst (removeTracking_sublist d)) hnd

theorem mem_removeTracking (d : List (List Char × List (List Char)))
    (kv : List Char × List (List Char)) (h : kv ∈ removeTracking d) :
    kv ∈ d ∧ kv.1 ∉ tracking_params := by
  have := List.mem_filter.mp h
  exact ⟨this.1, by simpa using this.2⟩

/-- Anatomy of an accepted, parseable input of normalize_url: the first
parse has a nonempty netloc, the output v reparses to the same components
with the re-encoded query and no fragment, and parsing the re-encoded query
back gives exactly the filtered dict. -/
theorem normalize_some_rebuild (u v : List Char) (hu : allBytes u)
    (hv : normalize_url u = some v) (hp : urlparseE u ≠ none) :
    ∃ c0, urlsplitE u = some c0 ∧ c0.netloc ≠ [] ∧
      urlparseE u = some ⟨c0.scheme, c0.netloc,
        (paramsSplit c0.scheme c0.path).1, (paramsSplit c0.scheme c0.path).2,
        c0.query, c0.fragment⟩ ∧
      urlparseE v = some ⟨c0.scheme, c0.netloc,
        (paramsSplit c0.scheme c0.path).1, (paramsSplit c0.scheme c0.path).2,
        urlencodeGrouped (removeTracking (parse_qs c0.query)), []⟩ ∧
      parse_qs (urlencodeGrouped (removeTracking (parse_qs c0.query))) =
        removeTracking (parse_qs c0.query) := by
  simp only [normalize_url] at hv
  split at hv
  · exact Option.noConfusion hv
  · rename_i hne
    split at hv
    · rename_i heqp
      exact absurd heqp hp
    · rename_i parsed heqp
      split at hv
      · exact Option.noConfusion hv
      · rename_i hnl0
        injection hv with hveq
        have heqp2 := heqp
        unfold urlparseE at heqp2
        rcases hsp : urlsplitE u with _ | c0
        · rw [hsp] at heqp2
          exact Option.noConfusion heqp2
        · rw [hsp] at heqp2
          simp only [Option.map_some'] at heqp2
          injection heqp2 with hparsed
          subst hparsed
          obtain ⟨hsch, hnl, hnlb, hnlu, hpath, hquery, hqmem, hshape, -⟩ :=
            urlsplitE_facts u c0 hsp
          have hnlne' : c0.netloc ≠ [] := hnl0
          have hsub := paramsSplit_subset c0.scheme c0.path
          have hpfull_mem : ∀ x ∈ (if (paramsSplit c0.scheme c0.path).2 = []
              then (paramsSplit c0.scheme c0.path).1
              else (paramsSplit c0.scheme c0.path).1 ++
                ';' :: (paramsSplit c0.scheme c0.path).2),
              x ≠ '?' ∧ x ≠ '#' ∧ unsafeUrlByte x = false := by
            intro x hx
            by_cases h2 : (paramsSplit c0.scheme c0.path).2 = []
            · rw [if_pos h2] at hx
              exact hpath x (hsub.1 x hx)
            · rw [if_neg h2] at hx
              rcases List.mem_append.mp hx with hx1 | hx1
              · exact hpath x (hsub.1 x hx1)
              · rcases List.mem_cons.mp hx1 with rfl | hx2
                · exact ⟨by decide, by decide, by decide⟩
                · exact hpath x (hsub.2 x hx2)
          have hpfull_shape : (if (paramsSplit c0.scheme c0.path).2 = []
              then (paramsSplit c0.scheme c0.path).1
              else (paramsSplit c0.scheme c0.path).1 ++
                ';' :: (paramsSplit c0.scheme c0.path).2) = [] ∨
              (if (paramsSplit c0.scheme c0.path).2 = []
              then (paramsSplit c0.scheme c0.path).1
              else (paramsSplit c0.scheme c0.path).1 ++
                ';' :: (paramsSplit c0.scheme c0.path).2).take 1 = [ '/' ] := by
            have hsh := paramsSplit_shape c0.scheme c0.path (hshape hnlne')
            by_cases h2 : (paramsSplit c0.scheme c0.path).2 = []
            · rw [if_pos h2]
              exact hsh.1
            · rw [if_neg h2]
              rcases hsh.1 with h1 | h1
              · exact absurd (hsh.2 h1) h2
              · right
                have hne2 : (paramsSplit c0.scheme c0.path).1 ≠ [] := by
                  intro h0
                  exact h2 (hsh.2 h0)
                rw [takeOne_append _ _ hne2, h1]
          have hqs : ∀ x ∈ urlencodeGrouped (removeTracking (parse_qs c0.query)),
              x ≠ '#' ∧ unsafeUrlByte x = false := by
            intro x hx
            exact ⟨(urlencodeGrouped_avoid _ x hx).1,
              (urlencodeGrouped_avoid _ x hx).2.2⟩
          have hv2 : urlunparse ⟨c0.scheme, c0.netloc,
              (paramsSplit c0.scheme c0.path).1, (paramsSplit c0.scheme c0.path).2,
              urlencodeGrouped (removeTracking (parse_qs c0.query)), []⟩ = v := hveq
          have husplit : urlsplitE v = some ⟨c0.scheme, c0.netloc,
              (if (paramsSplit c0.scheme c0.path).2 = []
              then (paramsSplit c0.scheme c0.path).1
              else (paramsSplit c0.scheme c0.path).1 ++
                ';' :: (paramsSplit c0.scheme c0.path).2), [],
              urlencodeGrouped (removeTracking (parse_qs c0.query)), []⟩ := by
            rw [← hv2, urlunparse_pfull]
            exact urlsplitE_urlunparse _ _ _ _ hsch hnl hnlb hnlu hnlne'
              hpfull_mem hpfull_shape hqs
          have huparse : urlparseE v = some ⟨c0.scheme, c0.netloc,
              (paramsSplit c0.scheme c0.path).1, (paramsSplit c0.scheme c0.path).2,
              urlencodeGrouped (removeTracking (parse_qs c0.query)), []⟩ := by
            unfold urlparseE
            rw [husplit]
            show some (⟨c0.scheme, c0.netloc,
              (paramsSplit c0.scheme (if (paramsSplit c0.scheme c0.path).2 = []
                then (paramsSplit c0.scheme c0.path).1
                else (paramsSplit c0.scheme c0.path).1 ++
                  ';' :: (paramsSplit c0.scheme c0.path).2)).1,
              (paramsSplit c0.scheme (if (paramsSplit c0.scheme c0.path).2 = []
                then (paramsSplit c0.scheme c0.path).1
                else (paramsSplit c0.scheme c0.path).1 ++
                  ';' :: (paramsSplit c0.scheme c0.path).2)).2,
              urlencodeGrouped (removeTracking (parse_qs c0.query)), []⟩ :
                Components) = _
            rw [paramsSplit_stable c0.scheme c0.path]
          have hqbytes : allBytes c0.query := fun x hx => hu x (hqmem x hx)
          have hprops := parseQsl_props c0.query hqbytes
          have hfrom : ∀ kv ∈ parse_qs c0.query,
              allBytes kv.1 ∧ ∀ w ∈ kv.2, allBytes w ∧ w ≠ [] :=
            groupQs_from allBytes (fun w => allBytes w ∧ w ≠ [])
              (parseQsl c0.query)
              (fun kv hkv => ⟨(hprops kv hkv).1, (hprops kv hkv).2.1,
                (hprops kv hkv).2.2⟩)
          have hungp : ∀ kv ∈ ungroup (removeTracking (parse_qs c0.query)),
              allBytes kv.1 ∧ allBytes kv.2 ∧ kv.2 ≠ [] := by
            intro kv hkv
            obtain ⟨vs, hvs, hw⟩ := (mem_ungroup _ kv).mp hkv
            have h2 := hfrom (kv.1, vs) (mem_removeTracking _ _ hvs).1
            exact ⟨h2.1, (h2.2 kv.2 hw).1, (h2.2 kv.2 hw).2⟩
          have hpq : parse_qs (urlencodeGrouped (removeTracking (parse_qs c0.query))) =
              removeTracking (parse_qs c0.query) := by
            have hqsr : parseQsl (urlencodeGrouped (removeTracking (parse_qs c0.query))) =
                ungroup (removeTracking (parse_qs c0.query)) :=
              parseQsl_enc _ hungp
            show groupQs (parseQsl _) = _
            rw [hqsr]
            exact groupQs_ungroup _
              (removeTracking_nodup _ (groupQs_nodup _))
              (fun kv hkv => groupQs_vals_ne _ kv (mem_removeTracking _ _ hkv).1)
          exact ⟨c0, rfl, hnlne', heqp, huparse, hpq⟩

end Normalizer

namespace Scraper

open PyStr Urllib Normalizer

/-- The chain reports failure exactly when every strategy outcome fails
(raises, returns None, or returns falsy content). -/
theorem scrape_article_none_iff (url : List Char) (outcomes : List MethodOutcome)
    (logo : Option (List Char)) :
    scrape_article url outcomes logo = none ↔
      ∀ o ∈ outcomes, outcomeFails o = true := by
  induction outcomes with
  | nil => simp [scrape_article]
  | cons o rest ih =>
    cases o with
    | exn => simp [scrape_article, outcomeFails, ih]
    | ret oa =>
      cases oa with
      | none => simp [scrape_article, outcomeFails, ih]
      | some a =>
        by_cases hc : truthyOpt a.content = true
        · simp [scrape_article, outcomeFails, hc]
        · have hc2 : truthyOpt a.content = false := by simpa using hc
          simp [scrape_article, outcomeFails, hc2, ih]

/-- The first truthy-content strategy after a failing prefix wins. -/
theorem scrape_article_first (url : List Char) (logo : Option (List Char))
    (pre rest : List MethodOutcome) (a : ArticleData)
    (hpre : ∀ o ∈ pre, outcomeFails o = true) (ha : truthyOpt a.content = true) :
    scrape_article url (pre ++ MethodOutcome.ret (some a) :: rest) logo =
      some (decorate url { a with url := url } logo) := by
  induction pre with
  | nil =>
    simp only [List.nil_append, scrape_article]
    rw [if_pos ha]
  | cons o pre2 ih =>
    have ho := hpre o (by simp)
    have ih2 := ih (fun x hx => hpre x (by simp [hx]))
    cases o with
    | exn => simpa [scrape_article] using ih2
    | ret oa =>
      cases oa with
      | none => simpa [scrape_article] using ih2
      | some a2 =>
        have hfail : truthyOpt a2.content = false := by
          simpa [outcomeFails] using ho
        simp only [List.cons_append, scrape_article]
        rw [if_neg (by simp [hfail])]
        exact ih2

theorem decorate_url (url : List Char) (a : ArticleData)
    (logo : Option (List Char)) : (decorate url a logo).url = a.url := by
  simp only [decorate]
  split <;> rfl

/-- A successful per-article scrape is keyed by its argument URL. -/
theorem scrape_article_some_url (url : List Char) (outcomes : List MethodOutcome)
    (logo : Option (List Char)) (a : ArticleData)
    (h : scrape_article url outcomes logo = some a) : a.url = url := by
  induction outcomes with
  | nil => cases h
  | cons o rest ih =>
    cases o with
    | exn => exact ih h
    | ret oa =>
      cases oa with
      | none => exact ih h
      | some a2 =>
        by_cases hc : truthyOpt a2.content = true
        · rw [show scrape_article url (MethodOutcome.ret (some a2) :: rest) logo =
              some (decorate url { a2 with url := url } logo) from by
            simp only [scrape_article]
            rw [if_pos hc]] at h
          injection h with h2
          rw [← h2, decorate_url]
        · have hstep : scrape_article url (MethodOutcome.ret (some a2) :: rest) logo =
              scrape_article url rest logo := by
            simp only [scrape_article]
            rw [if_neg hc]
          rw [hstep] at h
          exact ih h

end Scraper

section QueryGroupingExamples

open PyStr Urllib Normalizer

example :
    groupQs (parseQsl ("a=1&b=2&a=3".data)) =
      [ ("a".data, [ "1".data, "3".data ]), ("b".data, [ "2".data ]) ] := by decide

example :
    urlencodeGrouped [ ("a".data, [ "1".data, "3".data ]),
      ("b".data, [ "2".data ]) ] = "a=1&a=3&b=2".data := by decide

end QueryGroupingExamples

section ModelEvaluationExamples

open Urllib Normalizer

example : normalize_url ("http://example.com/a?utm_source=x&b=2#frag".data) =
    some ("http://example.com/a?b=2".data) := by decide

example : normalize_url ("http://example.com/?utm_id=1".data) =
    some ("http://example.com/?utm_id=1".data) := by decide

example : normalize_url ("ftp://example.com/file".data) =
    some ("ftp://example.com/file".data) := by decide

example : normalize_url ("http://h/p?a=1&b=2&a=3".data) =
    some ("http://h/p?a=1&a=3&b=2".data) := by decide

example : normalize_url ("/relative/path".data) = none := by decide

example : normalize_url ("".data) = none := by decide

example : normalize_url ("http://[abc/x?utm_source=1".data) =
    some ("http://[abc/x?utm_source=1".data) := by decide

example : extract_domain ("http://www.example.com/a".data) =
    some ("example.com".data) := by decide

example : normalize_url ("HTTP://Host/A;p1?a=%20+x&b=".data) =
    some ("http://Host/A;p1?a=++x".data) := by decide

example : normalize_url ("http://h/x;y/a;further;s?q=1".data) =
    some ("http://h/x;y/a;further;s?q=1".data) := by decide

example : normalize_url ("//host/path?ref=1".data) =
    some ("//host/path".data) := by decide

example : normalize_url ("http://h/p?=5&a".data) =
    some ("http://h/p?=5".data) := by decide

example : normalize_url ("http://h/p?a=1;b=2".data) =
    some ("http://h/p?a=1%3Bb%3D2".data) := by decide

open DateFilters in
example : parse_date (DateInput.str ("2023-01-15T10:30:00Z".data)) =
    some ⟨2023, 1, 15, 10, 30, 0, 0⟩ := by decide

open DateFilters in
example : parse_date (DateInput.str ("15/01/2023".data)) =
    some ⟨2023, 1, 15, 0, 0, 0, 0⟩ := by decide

open DateFilters in
example : parse_date (DateInput.str ("hello world".data)) = none := by decide

open DateFilters in
example : parse_date (DateInput.str ("15.01.2023".data)) = none := by decide

open DateFilters in
example : parse_date (DateInput.str ("noise 2021-7-4 text".data)) =
    some ⟨2021, 7, 4, 0, 0, 0, 0⟩ := by decide

open DateFilters in
example : parse_date (DateInput.str ("January 5, 2020".data)) =
    some ⟨2020, 1, 5, 0, 0, 0, 0⟩ := by decide

open DateFilters in
example : parse_date (DateInput.str ("31/02/2023".data)) = none := by decide

open DateFilters in
example : parse_date (DateInput.str ("2023-99-99".data)) = none := by decide

open DateFilters in
example : parse_date (DateInput.str ("2023-01-15T10:30:00.123456".data)) =
    some ⟨2023, 1, 15, 10, 30, 0, 123456⟩ := by decide

open DateFilters in
example : parse_date (DateInput.str ("2023-01-15 10:30".data)) =
    some ⟨2023, 1, 15, 10, 30, 0, 0⟩ := by decide

open DateFilters in
example : subDays ⟨2023, 3, 1, 7, 0, 0, 0⟩ 29 = ⟨2023, 1, 31, 7, 0, 0, 0⟩ := by decide

open DateFilters in
example : parse_date (DateInput.str ("15-01-2023".data)) =
    some ⟨2023, 1, 15, 0, 0, 0, 0⟩ := by decide

open DateFilters in
example : parse_date (DateInput.str ("2023-99-99 2024-01-01".data)) = none := by decide

open DateFilters in
example : parse_date (DateInput.str ("12345-6-7".data)) =
    some ⟨2345, 6, 7, 0, 0, 0, 0⟩ := by decide

open DateFilters in
example : parse_date (DateInput.str ("0000-01-01".data)) = none := by decide

open DateFilters in
example : parse_date (DateInput.str ("5 March 1999".data)) =
    some ⟨1999, 3, 5, 0, 0, 0, 0⟩ := by decide

open DateFilters in
example : parse_date (DateInput.str ("MARCH 5, 1999".data)) =
    some ⟨1999, 3, 5, 0, 0, 0, 0⟩ := by decide

open DateFilters in
example : parse_date (DateInput.str ("2023-01-15T10:30:61".data)) =
    some ⟨2023, 1, 15, 0, 0, 0, 0⟩ := by decide

end ModelEvaluationExamples

section Claims

open PyStr Urllib Normalizer

open Scraper DateFilters

/-- C1 (amended): errors are keyed by the input URL, and a non-listing URL
yields at most one entry -- exactly one in the error cases (rejected URL,
build failure), but zero when the URL is accepted and every extraction
strategy fails, since the single-article branch appends nothing on
failure.  (The claim's "exactly one, never neither" is amended: the
all-strategies-fail case yields no entry at all.) -/
theorem claim_C1 (url : List Char) (env : SeedEnv) :
    (∀ e ∈ (scrape_url url env).2, e.url = url) ∧
    (∀ aus, env.build = BuildResult.ok aus → aus.length ≤ 1 →
      totalEntries (scrape_url url env) ≤ 1 ∧
      (totalEntries (scrape_url url env) = 0 ↔
        ∃ nurl, normalize_url url = some nurl ∧
          scrape_article nurl (env.methods nurl) (env.logo nurl) = none)) ∧
    (∀ msg, env.build = BuildResult.exn msg →
      totalEntries (scrape_url url env) = 1) ∧
    (normalize_url url = none → totalEntries (scrape_url url env) = 1) := by
  rcases hn : normalize_url url with _ | nurl
  · have hs : scrape_url url env =
        ([], [⟨url, "Error: Invalid URL: ".data ++ url⟩]) := by
      unfold scrape_url
      rw [hn]
    refine ⟨?_, ?_, ?_, ?_⟩
    · intro e he
      rw [hs] at he
      rcases List.mem_singleton.mp he with rfl
      rfl
    · intro aus hb hlen
      rw [hs]
      refine ⟨Nat.le_refl 1, ?_, ?_⟩
      · intro h0
        simp [totalEntries] at h0
      · rintro ⟨nurl, hnu, -⟩
        cases hnu
    · intro msg hb
      rw [hs]
      rfl
    · intro _
      rw [hs]
      rfl
  · rcases hb : env.build with msg | aus
    · have hs : scrape_url url env = ([], [⟨url, "Error: ".data ++ msg⟩]) := by
        unfold scrape_url
        rw [hn, hb]
      refine ⟨?_, ?_, ?_, ?_⟩
      · intro e he
        rw [hs] at he
        rcases List.mem_singleton.mp he with rfl
        rfl
      · intro aus hb2 hlen
        cases hb2
      · intro msg2 hb2
        rw [hs]
        rfl
      · intro h0
        cases h0
    · by_cases hlen : aus.length > 1
      · have hs : scrape_url url env =
            ((aus.take 10).filterMap
              (fun au => scrape_article au (env.methods au) (env.logo au)), []) := by
          unfold scrape_url
          rw [hn, hb]
          show (if aus.length > 1 then
              ((aus.take 10).filterMap
                (fun au => scrape_article au (env.methods au) (env.logo au)), [])
            else
              match scrape_article nurl (env.methods nurl) (env.logo nurl) with
              | some a => ([a], [])
              | none => ([], [])) = _
          rw [if_pos hlen]
        refine ⟨?_, ?_, ?_, ?_⟩
        · intro e he
          rw [hs] at he
          simp at he
        · intro aus2 hb2 hlen2
          injection hb2 with h3
          subst h3
          exact absurd hlen (by simpa using hlen2)
        · intro msg2 hb2
          cases hb2
        · intro h0
          cases h0
      · have hs : scrape_url url env =
            (match scrape_article nurl (env.methods nurl) (env.logo nurl) with
             | some a => ([a], [])
             | none => ([], [])) := by
          unfold scrape_url
          rw [hn, hb]
          show (if aus.length > 1 then
              ((aus.take 10).filterMap
                (fun au => scrape_article au (env.methods au) (env.logo au)), [])
            else
              match scrape_article nurl (env.methods nurl) (env.logo nurl) with
              | some a => ([a], [])
              | none => ([], [])) = _
          rw [if_neg hlen]
        refine ⟨?_, ?_, ?_, ?_⟩
        · intro e he
          rw [hs] at he
          rcases hsa : scrape_article nurl (env.methods nurl) (env.logo nurl)
            with _ | a
          · rw [hsa] at he
            simp at he
          · rw [hsa] at he
            simp at he
        · intro aus2 hb2 hlen2
          rw [hs]
          rcases hsa : scrape_article nurl (env.methods nurl) (env.logo nurl)
            with _ | a
          · refine ⟨by simp [totalEntries], ?_, ?_⟩
            · intro _
              exact ⟨nurl, rfl, hsa⟩
            · intro _
              rfl
          · refine ⟨by simp [totalEntries], ?_, ?_⟩
            · intro h0
              simp [totalEntries] at h0
            · rintro ⟨nurl2, hn2, hnone⟩
              injection hn2 with h3
              subst h3
              rw [hsa] at hnone
              cases hnone
        · intro msg2 hb2
          cases hb2
        · intro h0
          cases h0

/-- Counterexample to C1 as stated: a non-listing URL on which the single
extraction strategy fails yields zero entries, not exactly one. -/
theorem claim_C1_cex :
    totalEntries (scrape_url ("http://e.com/a".data)
      ⟨BuildResult.ok [], fun _ => [ MethodOutcome.exn ], fun _ => none⟩) = 0 ∧
    totalEntries (scrape_url ("http://e.com/a".data)
      ⟨BuildResult.ok [], fun _ => [ MethodOutcome.exn ], fun _ => none⟩) ≠ 1 :=
  ⟨by decide, by decide⟩

/-- Witness for C1 at a concrete URL whose build step fails. -/
theorem claim_C1_witness :
    (⟨BuildResult.exn ("boom".data), fun _ => [], fun _ => none⟩ :
      SeedEnv).build = BuildResult.exn ("boom".data) ∧
    totalEntries (scrape_url ("http://e.com/a".data)
      ⟨BuildResult.exn ("boom".data), fun _ => [], fun _ => none⟩) = 1 :=
  ⟨rfl, (claim_C1 ("http://e.com/a".data)
    ⟨BuildResult.exn ("boom".data), fun _ => [], fun _ => none⟩).2.2.1
    ("boom".data) rfl⟩

/-- C2 (amended): the chain reports failure exactly when every strategy
raises, returns None, or returns falsy content, and otherwise returns the
decorated dict of the first strategy whose content is truthy.  (The claim's
"non-empty after trimming" is amended to Python truthiness: the code never
strips the content, so whitespace-only content counts as a success.) -/
theorem claim_C2 (url : List Char) (logo : Option (List Char)) :
    (∀ outcomes, scrape_article url outcomes logo = none ↔
      ∀ o ∈ outcomes, outcomeFails o = true) ∧
    (∀ (pre rest : List MethodOutcome) (a : ArticleData),
      (∀ o ∈ pre, outcomeFails o = true) → truthyOpt a.content = true →
      scrape_article url (pre ++ MethodOutcome.ret (some a) :: rest) logo =
        some (decorate url { a with url := url } logo)) :=
  ⟨fun outcomes => scrape_article_none_iff url outcomes logo,
   fun pre rest a hpre ha => scrape_article_first url logo pre rest a hpre ha⟩

/-- Counterexample to C2 as stated: a strategy returning whitespace-only
content succeeds in the code, while the claim's trimmed-body rule would
report failure. -/
theorem claim_C2_cex :
    scrape_article ("http://e.com/x".data)
      [ MethodOutcome.ret (some ⟨"t".data, some (" ".data), "u".data, "en".data,
        none, [], none, none⟩) ] none ≠ none ∧
    SpecSide.specFirstTrimmed
      [ MethodOutcome.ret (some ⟨"t".data, some (" ".data), "u".data, "en".data,
        none, [], none, none⟩) ] = none :=
  ⟨by decide, by decide⟩

/-- Witness for C2 with two failing strategies before a succeeding one. -/
theorem claim_C2_witness :
    (∀ o ∈ [ MethodOutcome.exn, MethodOutcome.ret none ],
      outcomeFails o = true) ∧
    truthyOpt (some ("body".data)) = true ∧
    scrape_article ("http://e.com/a".data)
      ([ MethodOutcome.exn, MethodOutcome.ret none ] ++
        MethodOutcome.ret (some ⟨"t".data, some ("body".data), "raw".data,
          "en".data, none, [], none, none⟩) :: []) none =
      some (decorate ("http://e.com/a".data)
        { (⟨"t".data, some ("body".data), "raw".data, "en".data, none, [],
            none, none⟩ : ArticleData) with url := "http://e.com/a".data } none) :=
  ⟨by decide, by decide,
    (claim_C2 ("http://e.com/a".data) none).2
      [ MethodOutcome.exn, MethodOutcome.ret none ] [] _ (by decide) (by decide)⟩

/-- C3 (amended): a fetched seed URL is processed as a listing exactly when
the discovery count exceeds one; the listing branch fans out over the first
ten sub-article URLs, keeps only the successful scrapes (each keyed by its
sub-article URL), and the listing URL itself yields no entry -- but a
failed sub-article yields no error entry either, since the exception branch
of the loop is unreachable.  (The claim's "result-or-error entry per
sub-article" is amended: failures are silently dropped.) -/
theorem claim_C3 (url nurl : List Char) (env : SeedEnv) (aus : List (List Char))
    (hn : normalize_url url = some nurl) (hb : env.build = BuildResult.ok aus) :
    (aus.length > 1 →
      scrape_url url env =
        ((aus.take 10).filterMap
          (fun au => scrape_article au (env.methods au) (env.logo au)), []) ∧
      ∀ a ∈ (scrape_url url env).1,
        ∃ au ∈ aus.take 10,
          scrape_article au (env.methods au) (env.logo au) = some a ∧
            a.url = au) ∧
    (¬ aus.length > 1 →
      scrape_url url env =
        (match scrape_article nurl (env.methods nurl) (env.logo nurl) with
         | some a => ([a], [])
         | none => ([], []))) := by
  constructor
  · intro hlen
    have hs : scrape_url url env =
        ((aus.take 10).filterMap
          (fun au => scrape_article au (env.methods au) (env.logo au)), []) := by
      unfold scrape_url
      rw [hn, hb]
      show (if aus.length > 1 then
          ((aus.take 10).filterMap
            (fun au => scrape_article au (env.methods au) (env.logo au)), [])
        else
          match scrape_article nurl (env.methods nurl) (env.logo nurl) with
          | some a => ([a], [])
          | none => ([], [])) = _
      rw [if_pos hlen]
    refine ⟨hs, ?_⟩
    intro a ha
    rw [hs] at ha
    rcases List.mem_filterMap.mp ha with ⟨au, hau, hsa⟩
    exact ⟨au, hau, hsa, scrape_article_some_url au _ _ a hsa⟩
  · intro hlen
    unfold scrape_url
    rw [hn, hb]
    show (if aus.length > 1 then
        ((aus.take 10).filterMap
          (fun au => scrape_article au (env.methods au) (env.logo au)), [])
      else
        match scrape_article nurl (env.methods nurl) (env.logo nurl) with
        | some a => ([a], [])
        | none => ([], [])) = _
    rw [if_neg hlen]

/-- Counterexample to C3 as stated: a listing with two sub-articles, one of
which fails, returns one entry in total and no entry keyed by the failing
sub-article URL. -/
theorem claim_C3_cex :
    totalEntries (scrape_url ("http://e.com/".data)
      ⟨BuildResult.ok [ "http://e.com/a1".data, "http://e.com/a2".data ],
        fun au => if au = "http://e.com/a1".data then
          [ MethodOutcome.ret (some ⟨"t".data, some ("c".data), "x".data,
            "en".data, none, [], none, none⟩) ]
          else [ MethodOutcome.exn ],
        fun _ => none⟩) = 1 ∧
    countEntries (scrape_url ("http://e.com/".data)
      ⟨BuildResult.ok [ "http://e.com/a1".data, "http://e.com/a2".data ],
        fun au => if au = "http://e.com/a1".data then
          [ MethodOutcome.ret (some ⟨"t".data, some ("c".data), "x".data,
            "en".data, none, [], none, none⟩) ]
          else [ MethodOutcome.exn ],
        fun _ => none⟩) ("http://e.com/a2".data) = 0 :=
  ⟨by decide, by decide⟩

/-- Witness for C3 at a concrete two-article listing. -/
theorem claim_C3_witness :
    normalize_url ("http://e.com/".data) = some ("http://e.com/".data) ∧
    ([ "http://e.com/a1".data, "http://e.com/a2".data ] :
      List (List Char)).length > 1 ∧
    (scrape_url ("http://e.com/".data)
        ⟨BuildResult.ok [ "http://e.com/a1".data, "http://e.com/a2".data ],
          fun _ => [ MethodOutcome.exn ], fun _ => none⟩ =
      (([ "http://e.com/a1".data, "http://e.com/a2".data ].take 10).filterMap
        (fun au => scrape_article au [ MethodOutcome.exn ] none), []) ∧
    ∀ a ∈ (scrape_url ("http://e.com/".data)
        ⟨BuildResult.ok [ "http://e.com/a1".data, "http://e.com/a2".data ],
          fun _ => [ MethodOutcome.exn ], fun _ => none⟩).1,
      ∃ au ∈ [ "http://e.com/a1".data, "http://e.com/a2".data ].take 10,
        scrape_article au [ MethodOutcome.exn ] none = some a ∧ a.url = au) :=
  ⟨by decide, by decide,
    (claim_C3 ("http://e.com/".data) ("http://e.com/".data)
      ⟨BuildResult.ok [ "http://e.com/a1".data, "http://e.com/a2".data ],
        fun _ => [ MethodOutcome.exn ], fun _ => none⟩
      [ "http://e.com/a1".data, "http://e.com/a2".data ]
      (by decide) rfl).1 (by decide)⟩

/-- C6 (amended): parse_date tries the fixed format list in order and
returns the first full-string match; the ISO example parses to the datetime
2023-01-15 10:30:00, the slashed example follows the DD/MM convention
because %d/%m/%Y precedes %m/%d/%Y, a string matching nothing and holding
no year-month-day substring gives none, and otherwise the regex fallback
finds the leftmost year-month-day substring.  (The claim's "dotted
variants" are amended away: no dotted format is in the list, see the
counterexample.) -/
theorem claim_C6 :
    (∀ (fs1 fs2 : List (List Char)) (f s : List Char) (d : PyDateTime),
      (∀ f2 ∈ fs1, strptime f2 s = none) → strptime f s = some d →
      tryFormatsL (fs1 ++ f :: fs2) s = some d) ∧
    parse_date (DateInput.str ("2023-01-15T10:30:00Z".data)) =
      some ⟨2023, 1, 15, 10, 30, 0, 0⟩ ∧
    parse_date (DateInput.str ("15/01/2023".data)) =
      some ⟨2023, 1, 15, 0, 0, 0, 0⟩ ∧
    parse_date (DateInput.str ("hello world".data)) = none ∧
    parse_date (DateInput.str ("noise 2021-7-4 text".data)) =
      some ⟨2021, 7, 4, 0, 0, 0, 0⟩ := by
  refine ⟨?_, by decide, by decide, by decide, by decide⟩
  intro fs1
  induction fs1 with
  | nil =>
    intro fs2 f s d h1 h2
    show tryFormatsL (f :: fs2) s = some d
    unfold tryFormatsL
    rw [h2]
  | cons f0 fs ih =>
    intro fs2 f s d h1 h2
    show tryFormatsL (f0 :: (fs ++ f :: fs2)) s = some d
    unfold tryFormatsL
    rw [h1 f0 (by simp)]
    exact ih fs2 f s d (fun f2 hf2 => h1 f2 (by simp [hf2])) h2

/-- Counterexample to C6 as stated: the dotted date 15.01.2023 matches none
of the formats and has no year-month-day substring, so parse_date returns
none instead of the claimed 2023-01-15. -/
theorem claim_C6_cex :
    parse_date (DateInput.str ("15.01.2023".data)) = none ∧
    parse_date (DateInput.str ("15.01.2023".data)) ≠
      some ⟨2023, 1, 15, 0, 0, 0, 0⟩ :=
  ⟨by decide, by decide⟩

/-- Witness for C6: the first-match clause at a concrete format split. -/
theorem claim_C6_witness :
    (∀ f2 ∈ [ "%Y-%m-%dT%H:%M:%S".data ],
      strptime f2 ("2023-01-15".data) = none) ∧
    strptime ("%Y-%m-%d".data) ("2023-01-15".data) =
      some ⟨2023, 1, 15, 0, 0, 0, 0⟩ ∧
    tryFormatsL ([ "%Y-%m-%dT%H:%M:%S".data ] ++
        "%Y-%m-%d".data :: [ "%d/%m/%Y".data ]) ("2023-01-15".data) =
      some ⟨2023, 1, 15, 0, 0, 0, 0⟩ :=
  ⟨by decide, by decide,
    claim_C6.1 [ "%Y-%m-%dT%H:%M:%S".data ] [ "%d/%m/%Y".data ]
      ("%Y-%m-%d".data) ("2023-01-15".data) ⟨2023, 1, 15, 0, 0, 0, 0⟩
      (by decide) (by decide)⟩

/-- C7: the recency filter keeps an article exactly when its
publication_date is present, parses, and is at or after now minus
max_age_days; filter_recent_articles keeps exactly those articles. -/
theorem claim_C7 (article : FilterArticle) (max_age_days : Nat)
    (now : PyDateTime) :
    (is_recent_article article max_age_days now = true ↔
      ∃ di pd, article.publication_date = some di ∧ parse_date di = some pd ∧
        dtLe (subDays now max_age_days) pd = true) ∧
    ∀ articles : List FilterArticle,
      filter_recent_articles articles max_age_days now =
        articles.filter (fun a => is_recent_article a max_age_days now) := by
  constructor
  · constructor
    · intro h
      unfold is_recent_article at h
      split at h
      · cases h
      · split at h
        · cases h
        · rename_i di hdi
          split at h
          · cases h
          · rename_i pd hpd
            exact ⟨di, pd, hdi, hpd, h⟩
    · rintro ⟨di, pd, hdi, hpd, hle⟩
      have htr : truthyPub (some di) = true := by
        rcases di with s | d
        · by_cases hs : s = []
          · subst hs
            exact absurd hpd (by simp [parse_date])
          · simp [truthyPub, hs]
        · rfl
      unfold is_recent_article
      rw [hdi]
      simp only [htr, Bool.not_true, Bool.false_eq_true, if_false]
      show (match parse_date di with
        | none => false
        | some pd2 => dtLe (subDays now max_age_days) pd2) = true
      rw [hpd]
      exact hle
  · intro articles
    rfl

/-- Witness for C7: there is no hypothesis to discharge, but the filter is
exercised at a concrete undated article, which is dropped. -/
theorem claim_C7_witness :
    is_recent_article ⟨none, "http://e.com/a".data⟩ 7 ⟨2023, 1, 15, 0, 0, 0, 0⟩ =
      false ∧
    filter_recent_articles [ ⟨none, "http://e.com/a".data⟩ ] 7
      ⟨2023, 1, 15, 0, 0, 0, 0⟩ = [] :=
  ⟨by decide, by decide⟩

/-- C10: a datetime-valued input passes through parse_date unchanged. -/
theorem claim_C10 (d : PyDateTime) :
    parse_date (DateInput.dt d) = some d := rfl

/-- C5: for every byte-string URL u that normalize_url does not reject
(returning some v), normalization is idempotent: normalizing the output v
returns some v again, so normalize_url (normalize_url u) = normalize_url u. -/
theorem claim_C5 (u v : List Char) (hu : allBytes u)
    (hv : normalize_url u = some v) : normalize_url v = some v := by
  simp only [normalize_url] at hv
  split at hv
  · exact Option.noConfusion hv
  · rename_i hne
    split at hv
    · rename_i heqp
      injection hv with hvu
      subst hvu
      simp only [normalize_url]
      rw [if_neg hne, heqp]
    · rename_i parsed heqp
      split at hv
      · exact Option.noConfusion hv
      · rename_i hnl0
        injection hv with hveq
        have heqp2 := heqp
        unfold urlparseE at heqp2
        rcases hsp : urlsplitE u with _ | c0
        · rw [hsp] at heqp2
          exact Option.noConfusion heqp2
        · rw [hsp] at heqp2
          simp only [Option.map_some'] at heqp2
          injection heqp2 with hparsed
          subst hparsed
          obtain ⟨hsch, hnl, hnlb, hnlu, hpath, hquery, hqmem, hshape, -⟩ :=
            urlsplitE_facts u c0 hsp
          have hnlne' : c0.netloc ≠ [] := hnl0
          -- character facts of the reattached path
          have hsub := paramsSplit_subset c0.scheme c0.path
          have hpfull_mem : ∀ x ∈ (if (paramsSplit c0.scheme c0.path).2 = []
              then (paramsSplit c0.scheme c0.path).1
              else (paramsSplit c0.scheme c0.path).1 ++
                ';' :: (paramsSplit c0.scheme c0.path).2),
              x ≠ '?' ∧ x ≠ '#' ∧ unsafeUrlByte x = false := by
            intro x hx
            by_cases h2 : (paramsSplit c0.scheme c0.path).2 = []
            · rw [if_pos h2] at hx
              exact hpath x (hsub.1 x hx)
            · rw [if_neg h2] at hx
              rcases List.mem_append.mp hx with hx1 | hx1
              · exact hpath x (hsub.1 x hx1)
              · rcases List.mem_cons.mp hx1 with rfl | hx2
                · exact ⟨by decide, by decide, by decide⟩
                · exact hpath x (hsub.2 x hx2)
          have hpfull_shape : (if (paramsSplit c0.scheme c0.path).2 = []
              then (paramsSplit c0.scheme c0.path).1
              else (paramsSplit c0.scheme c0.path).1 ++
                ';' :: (paramsSplit c0.scheme c0.path).2) = [] ∨
              (if (paramsSplit c0.scheme c0.path).2 = []
              then (paramsSplit c0.scheme c0.path).1
              else (paramsSplit c0.scheme c0.path).1 ++
                ';' :: (paramsSplit c0.scheme c0.path).2).take 1 = [ '/' ] := by
            have hsh := paramsSplit_shape c0.scheme c0.path (hshape hnlne')
            by_cases h2 : (paramsSplit c0.scheme c0.path).2 = []
            · rw [if_pos h2]
              exact hsh.1
            · rw [if_neg h2]
              rcases hsh.1 with h1 | h1
              · exact absurd (hsh.2 h1) h2
              · right
                have hne2 : (paramsSplit c0.scheme c0.path).1 ≠ [] := by
                  intro h0
                  exact h2 (hsh.2 h0)
                rw [takeOne_append _ _ hne2, h1]
          have hqs : ∀ x ∈ urlencodeGrouped (removeTracking (parse_qs c0.query)),
              x ≠ '#' ∧ unsafeUrlByte x = false := by
            intro x hx
            exact ⟨(urlencodeGrouped_avoid _ x hx).1,
              (urlencodeGrouped_avoid _ x hx).2.2⟩
          have hv2 : urlunparse ⟨c0.scheme, c0.netloc,
              (paramsSplit c0.scheme c0.path).1, (paramsSplit c0.scheme c0.path).2,
              urlencodeGrouped (removeTracking (parse_qs c0.query)), []⟩ = v := hveq
          have husplit : urlsplitE v = some ⟨c0.scheme, c0.netloc,
              (if (paramsSplit c0.scheme c0.path).2 = []
              then (paramsSplit c0.scheme c0.path).1
              else (paramsSplit c0.scheme c0.path).1 ++
                ';' :: (paramsSplit c0.scheme c0.path).2), [],
              urlencodeGrouped (removeTracking (parse_qs c0.query)), []⟩ := by
            rw [← hv2, urlunparse_pfull]
            exact urlsplitE_urlunparse _ _ _ _ hsch hnl hnlb hnlu hnlne'
              hpfull_mem hpfull_shape hqs
          have huparse : urlparseE v = some ⟨c0.scheme, c0.netloc,
              (paramsSplit c0.scheme c0.path).1, (paramsSplit c0.scheme c0.path).2,
              urlencodeGrouped (removeTracking (parse_qs c0.query)), []⟩ := by
            unfold urlparseE
            rw [husplit]
            show some (⟨c0.scheme, c0.netloc,
              (paramsSplit c0.scheme (if (paramsSplit c0.scheme c0.path).2 = []
                then (paramsSplit c0.scheme c0.path).1
                else (paramsSplit c0.scheme c0.path).1 ++
                  ';' :: (paramsSplit c0.scheme c0.path).2)).1,
              (paramsSplit c0.scheme (if (paramsSplit c0.scheme c0.path).2 = []
                then (paramsSplit c0.scheme c0.path).1
                else (paramsSplit c0.scheme c0.path).1 ++
                  ';' :: (paramsSplit c0.scheme c0.path).2)).2,
              urlencodeGrouped (removeTracking (parse_qs c0.query)), []⟩ :
                Components) = _
            rw [paramsSplit_stable c0.scheme c0.path]
          -- the query round trip
          have hqbytes : allBytes c0.query := fun x hx => hu x (hqmem x hx)
          have hprops := parseQsl_props c0.query hqbytes
          have hfrom : ∀ kv ∈ parse_qs c0.query,
              allBytes kv.1 ∧ ∀ w ∈ kv.2, allBytes w ∧ w ≠ [] := by
            have h3 := groupQs_from allBytes (fun w => allBytes w ∧ w ≠ [])
              (parseQsl c0.query)
              (fun kv hkv => ⟨(hprops kv hkv).1, (hprops kv hkv).2.1,
                (hprops kv hkv).2.2⟩)
            exact h3
          have hungp : ∀ kv ∈ ungroup (removeTracking (parse_qs c0.query)),
              allBytes kv.1 ∧ allBytes kv.2 ∧ kv.2 ≠ [] := by
            intro kv hkv
            obtain ⟨vs, hvs, hw⟩ := (mem_ungroup _ kv).mp hkv
            have h2 := hfrom (kv.1, vs) (mem_removeTracking _ _ hvs).1
            exact ⟨h2.1, (h2.2 kv.2 hw).1, (h2.2 kv.2 hw).2⟩
          have hqsr : parseQsl (urlencodeGrouped (removeTracking (parse_qs c0.query))) =
              ungroup (removeTracking (parse_qs c0.query)) :=
            parseQsl_enc _ hungp
          have hnodup2 : ((removeTracking (parse_qs c0.query)).map Prod.fst).Nodup :=
            removeTracking_nodup _ (groupQs_nodup _)
          have hvals2 : ∀ kv ∈ removeTracking (parse_qs c0.query), kv.2 ≠ [] :=
            fun kv hkv => groupQs_vals_ne _ kv (mem_removeTracking _ _ hkv).1
          have hpq : parse_qs (urlencodeGrouped (removeTracking (parse_qs c0.query))) =
              removeTracking (parse_qs c0.query) := by
            show groupQs (parseQsl _) = _
            rw [hqsr]
            exact groupQs_ungroup _ hnodup2 hvals2
          -- v is nonempty since its netloc is
          have hvne : v ≠ [] := by
            intro h0
            rw [h0] at husplit
            have he : urlsplitE [] = some ⟨[], [], [], [], [], []⟩ := rfl
            rw [he] at husplit
            injection husplit with h2
            injection h2 with hs2 hn2 _ _ _ _
            exact hnlne' hn2.symm
          -- evaluate the second normalization
          simp only [normalize_url]
          rw [if_neg hvne, huparse]
          show (if c0.netloc = [] then none
            else some (urlunparse ⟨c0.scheme, c0.netloc,
              (paramsSplit c0.scheme c0.path).1, (paramsSplit c0.scheme c0.path).2,
              urlencodeGrouped (removeTracking (parse_qs
                (urlencodeGrouped (removeTracking (parse_qs c0.query))))), []⟩)) =
            some v
          rw [if_neg hnlne', hpq, removeTracking_idem]
          exact congrArg some hv2

/-- C4 (amended): for every byte-string URL that normalize_url accepts and
urlparse parses, the output's query dict contains no key of the fixed
deny-list tracking_params.  (The claim's wildcard utm_* is amended to the
thirteen listed keys: the code removes only those.) -/
theorem claim_C4 (u v : List Char) (hu : allBytes u)
    (hv : normalize_url u = some v) (hp : urlparseE u ≠ none) :
    ∀ k ∈ (parse_qs (SpecSide.queryOf v)).map Prod.fst, k ∉ tracking_params := by
  obtain ⟨c0, hsp, hnlne, hup, hupv, hpq⟩ := normalize_some_rebuild u v hu hv hp
  intro k hk
  have hqv : SpecSide.queryOf v =
      urlencodeGrouped (removeTracking (parse_qs c0.query)) := by
    unfold SpecSide.queryOf
    rw [hupv]
  rw [hqv, hpq] at hk
  rcases List.mem_map.mp hk with ⟨kv, hkv, rfl⟩
  exact (mem_removeTracking _ _ hkv).2

/-- Counterexample to C4 as stated: utm_id matches the claim's utm_*
wildcard, yet it is not on the code's deny-list and survives
normalization in the output query. -/
theorem claim_C4_cex :
    SpecSide.claimDeniedKey ("utm_id".data) = true ∧
    normalize_url ("http://example.com/?utm_id=1".data) =
      some ("http://example.com/?utm_id=1".data) ∧
    "utm_id".data ∈ (parse_qs (SpecSide.queryOf
      ("http://example.com/?utm_id=1".data))).map Prod.fst :=
  ⟨by decide, by decide, by decide⟩

/-- Witness for C4 at a concrete URL carrying utm_source. -/
theorem claim_C4_witness :
    allBytes ("http://example.com/a?utm_source=x&b=2#frag".data) ∧
    normalize_url ("http://example.com/a?utm_source=x&b=2#frag".data) =
      some ("http://example.com/a?b=2".data) ∧
    urlparseE ("http://example.com/a?utm_source=x&b=2#frag".data) ≠ none ∧
    ∀ k ∈ (parse_qs (SpecSide.queryOf
      ("http://example.com/a?b=2".data))).map Prod.fst, k ∉ tracking_params :=
  ⟨by decide, by decide, by decide,
    claim_C4 ("http://example.com/a?utm_source=x&b=2#frag".data)
      ("http://example.com/a?b=2".data) (by decide) (by decide) (by decide)⟩

/-- C8 (amended): normalize_url rejects (returns none) exactly for the
empty string and for inputs parsing with an empty netloc; the scheme is
never inspected, and a parse error returns the input unchanged rather than
none.  The function is total, so it never raises to the caller. -/
theorem claim_C8 (u : List Char) :
    normalize_url u = none ↔
      u = [] ∨ ∃ c, urlparseE u = some c ∧ c.netloc = [] := by
  simp only [normalize_url]
  split
  · rename_i h0
    simp [h0]
  · rename_i h0
    rcases hp : urlparseE u with _ | c
    · simp [hp, h0]
    · show (if c.netloc = [] then none
        else some (urlunparse ⟨c.scheme, c.netloc, c.path, c.params,
          urlencodeGrouped (removeTracking (parse_qs c.query)), []⟩)) = none ↔
        u = [] ∨ ∃ c1, some c = some c1 ∧ c1.netloc = []
      by_cases hn : c.netloc = []
      · rw [if_pos hn]
        simp [h0, hn]
      · rw [if_neg hn]
        simp [h0, hn]

/-- Counterexample to C8 as stated: an ftp URL is not an absolute HTTP(S)
URL, yet normalize_url accepts it; and the malformed bracket URL parses
with an error, yet normalize_url returns it unchanged instead of the
rejection signal. -/
theorem claim_C8_cex :
    normalize_url ("ftp://example.com/file".data) =
      some ("ftp://example.com/file".data) ∧
    urlparseE ("http://[abc".data) = none ∧
    normalize_url ("http://[abc".data) = some ("http://[abc".data) :=
  ⟨by decide, by decide, by decide⟩

/-- C9 (amended): for every accepted, parseable byte-string URL, the output
query's parse_qs dict is exactly the input dict with deny-listed keys
removed -- every surviving key keeps all its values in order -- and the
fragment of the output is empty.  (The claim's original relative order of
pairs is amended: urlencode serializes the parse_qs dict, which groups the
values of a repeated key together at the key's first position.) -/
theorem claim_C9 (u v : List Char) (hu : allBytes u)
    (hv : normalize_url u = some v) (hp : urlparseE u ≠ none) :
    parse_qs (SpecSide.queryOf v) =
      removeTracking (parse_qs (SpecSide.queryOf u)) ∧
    ∀ cv, urlparseE v = some cv → cv.fragment = [] := by
  obtain ⟨c0, hsp, hnlne, hup, hupv, hpq⟩ := normalize_some_rebuild u v hu hv hp
  have hqv : SpecSide.queryOf v =
      urlencodeGrouped (removeTracking (parse_qs c0.query)) := by
    unfold SpecSide.queryOf
    rw [hupv]
  have hqu : SpecSide.queryOf u = c0.query := by
    unfold SpecSide.queryOf
    rw [hup]
  constructor
  · rw [hqv, hpq, hqu]
  · intro cv hcv
    rw [hupv] at hcv
    injection hcv with h2
    rw [← h2]

/-- Counterexample to C9 as stated: with query a=1&b=2&a=3 the surviving
pairs do not keep their original relative order -- the second value of a
is regrouped before b in the output. -/
theorem claim_C9_cex :
    normalize_url ("http://h/p?a=1&b=2&a=3".data) =
      some ("http://h/p?a=1&a=3&b=2".data) ∧
    parseQsl (SpecSide.queryOf ("http://h/p?a=1&a=3&b=2".data)) ≠
      parseQsl (SpecSide.queryOf ("http://h/p?a=1&b=2&a=3".data)) :=
  ⟨by decide, by decide⟩

/-- Witness for C9 at a concrete URL with a repeated key and a tracking
parameter. -/
theorem claim_C9_witness :
    allBytes ("http://h/p?a=1&b=2&a=3&utm_source=z".data) ∧
    normalize_url ("http://h/p?a=1&b=2&a=3&utm_source=z".data) =
      some ("http://h/p?a=1&a=3&b=2".data) ∧
    urlparseE ("http://h/p?a=1&b=2&a=3&utm_source=z".data) ≠ none ∧
    (parse_qs (SpecSide.queryOf ("http://h/p?a=1&a=3&b=2".data)) =
      removeTracking (parse_qs (SpecSide.queryOf
        ("http://h/p?a=1&b=2&a=3&utm_source=z".data))) ∧
    ∀ cv, urlparseE ("http://h/p?a=1&a=3&b=2".data) = some cv →
      cv.fragment = []) :=
  ⟨by decide, by decide, by decide,
    claim_C9 ("http://h/p?a=1&b=2&a=3&utm_source=z".data)
      ("http://h/p?a=1&a=3&b=2".data) (by decide) (by decide) (by decide)⟩

/-- Witness for C5 at a concrete URL accepted by normalize_url. -/
theorem claim_C5_witness :
    allBytes ("http://example.com/a?b=2".data) ∧
    normalize_url ("http://example.com/a?b=2".data) =
      some ("http://example.com/a?b=2".data) ∧
    normalize_url ("http://example.com/a?b=2".data) =
      some ("http://example.com/a?b=2".data) :=
  ⟨by decide, by decide,
    claim_C5 ("http://example.com/a?b=2".data) ("http://example.com/a?b=2".data)
      (by decide) (by decide)⟩

end Claims
